import Mathlib

/-!
# Verification of the BGP prefix-indexed routing table (bgpd/bgp_table.c)

A shallow embedding of the Patricia-style binary radix trie of
`src/bgpd/bgp_table.c`, together with proofs about its operations:
longest-prefix match, exact lookup, find-or-insert, reference-counted
deletion, bulk teardown, iteration and the debug invariant checker.

Machine bytes are modelled as natural numbers (every byte handled by the
code is a `u_char`; the bit operations used below agree with the C ones on
that range).  A prefix's byte array is modelled as a `List Nat`; reads
beyond the end of the list yield 0, matching the canonical-form contract
that bits beyond the prefix length are zero.  The `family` tag of a prefix
is opaque to every table operation (it is only copied around), so it is
omitted from the model.  Pointers into the trie are modelled as root paths
(`List Bool`, `false` = left/link[0], `true` = right/link[1]).
-/

/-- A prefix: a bit length plus the byte array holding the address,
network order (struct prefix: `prefixlen` and `u.prefix`). -/
structure Pfx where
  prefixlen : Nat
  bytes : List Nat
deriving DecidableEq, Repr

/-- Read byte `i` of a byte array; reads beyond the array give 0. -/
def byteAt (bs : List Nat) (i : Nat) : Nat := bs.getD i 0

/-- The utility mask array `maskbit` of bgp_table.c. -/
def maskbit (i : Nat) : Nat :=
  [0x00, 0x80, 0xc0, 0xe0, 0xf0, 0xf8, 0xfc, 0xfe, 0xff].getD i 0

/-- Modelled from the spec: `bit_at(prefix, n)` of lib/prefix.c (not under
src/) "returns bit `n` counted from the most significant bit (bit 0 = top
bit of byte 0)". -/
def prefix_bit (bs : List Nat) (n : Nat) : Bool :=
  (byteAt bs (n / 8)) >>> (7 - n % 8) % 2 = 1

/-- Modelled from the spec: `prefix_match(n, p)` of lib/prefix.c (not under
src/): "`p covers q` iff `p.length ≤ q.length` and the first `p.length`
bits of `p.bits` and `q.bits` agree". -/
def prefix_match (n p : Pfx) : Bool :=
  n.prefixlen ≤ p.prefixlen &&
    (List.range n.prefixlen).all fun i => prefix_bit n.bytes i == prefix_bit p.bytes i

/-- Modelled from the spec: `prefix_check` / canonical form of lib/prefix.c
(not under src/): "bits beyond `prefix_length` must be zero".  Bits beyond
the byte array are zero by construction, so checking the array suffices. -/
def prefix_check (p : Pfx) : Bool :=
  (List.range (8 * p.bytes.length)).all fun n =>
    decide (n < p.prefixlen) || !(prefix_bit p.bytes n)

/-- The bytes of a prefix are machine bytes (`u_char`), each below 256. -/
def bytesOk (p : Pfx) : Bool := p.bytes.all (· < 256)

/-- The byte-wise scan of `route_common`: smallest `i < fuel` (starting at
`i`) where the byte arrays differ, else the bound. -/
def rcByteScan (np pp : List Nat) (i fuel : Nat) : Nat :=
  match fuel with
  | 0 => i
  | fuel + 1 => if byteAt np i = byteAt pp i then rcByteScan np pp (i + 1) fuel else i

/-- The bit-wise scan of `route_common`:
`while (len < plen && !(mask & diff)) { mask >>= 1; len++; }`. -/
def rcBitScan (plen diff len mask fuel : Nat) : Nat :=
  match fuel with
  | 0 => len
  | fuel + 1 =>
      if len < plen ∧ mask &&& diff = 0 then rcBitScan plen diff (len + 1) (mask >>> 1) fuel
      else len

/-- `route_common (n, p, new)` of bgp_table.c: write into `new` the common
prefix of `n` and `p`.  `new` is a zeroed node prefix at the call sites, so
the bytes the C code does not write are zero, i.e. absent from the list. -/
def route_common (n p : Pfx) : Pfx :=
  let i := rcByteScan n.bytes p.bytes 0 (p.prefixlen / 8)
  let len0 := i * 8
  if len0 ≠ p.prefixlen then
    let diff := byteAt n.bytes i ^^^ byteAt p.bytes i
    let len := rcBitScan p.prefixlen diff len0 0x80 p.prefixlen
    ⟨len, (List.range i).map (byteAt n.bytes) ++ [byteAt n.bytes i &&& maskbit (len % 8)]⟩
  else
    ⟨len0, (List.range i).map (byteAt n.bytes)⟩

/-- The per-node fields of `struct bgp_node` relevant to the table
operations.  `info`, `adj_ins`, `adj_outs` are opaque externally owned
pointers: only their nullness matters, so they are booleans (`true` =
non-null); `prn` is the back-pointer to the VPN route-distinguisher node,
modelled as an opaque optional identifier. -/
structure NodeData where
  p : Pfx
  lock : Nat
  info : Bool
  prn : Option Nat
  on_wq : Bool
  adj_ins : Bool
  adj_outs : Bool
deriving DecidableEq, Repr

/-- A zeroed node record as handed out by `bgp_node_calloc`. -/
def zeroNode (p : Pfx) : NodeData :=
  { p := p, lock := 0, info := false, prn := none, on_wq := false,
    adj_ins := false, adj_outs := false }

/-- The trie.  `nil` is the NULL child pointer; `node d l r` is a node with
data `d`, left child `link[0] = l_left = l` and right child
`link[1] = l_right = r`.  Parent pointers are implicit in the structure. -/
inductive RTree where
  | nil : RTree
  | node : NodeData → RTree → RTree → RTree
deriving DecidableEq, Repr

namespace RTree

/-- Number of nodes reachable from this (sub)tree root. -/
def size : RTree → Nat
  | nil => 0
  | node _ l r => 1 + size l + size r

/-- All node records of the tree, in pre-order. -/
def nodesOf : RTree → List NodeData
  | nil => []
  | node d l r => d :: (nodesOf l ++ nodesOf r)

def isNil : RTree → Bool
  | nil => true
  | node _ _ _ => false

def leftOf : RTree → RTree
  | nil => nil
  | node _ l _ => l

def rightOf : RTree → RTree
  | nil => nil
  | node _ _ r => r

def dataOf : RTree → Option NodeData
  | nil => none
  | node d _ _ => some d

/-- Follow a root path; `false` goes left (`link[0]`), `true` right. -/
def subAt : RTree → List Bool → RTree
  | t, [] => t
  | nil, _ :: _ => nil
  | node _ l r, b :: bs => subAt (if b then r else l) bs

/-- The node record at a root path, if the path is valid. -/
def nodeAt (t : RTree) (bs : List Bool) : Option NodeData :=
  dataOf (subAt t bs)

/-- Apply `f` to the node record at a root path (identity if invalid). -/
def modifyAt : RTree → List Bool → (NodeData → NodeData) → RTree
  | nil, _, _ => nil
  | node d l r, [], f => node (f d) l r
  | node d l r, b :: bs, f =>
      if b then node d l (modifyAt r bs f) else node d (modifyAt l bs f) r

/-- `bgp_lock_node` on the node at a root path. -/
def bumpAt (t : RTree) (bs : List Bool) : RTree :=
  modifyAt t bs fun d => { d with lock := d.lock + 1 }

/-- Erase the lock counters (for frame statements: everything but locks). -/
def stripLocks : RTree → RTree
  | nil => nil
  | node d l r => node { d with lock := 0 } (stripLocks l) (stripLocks r)

end RTree

open RTree

/-- Place two children under a fresh glue node the way `bgp_node_get` does:
first `set_link (new, node)` stores `tn` at side `bn`, then
`set_link (match, new)` stores `tp` at side `bp` (overwriting on a clash,
exactly as the C asks; the clash is proved impossible elsewhere). -/
def place2 (bn : Bool) (tn : RTree) (bp : Bool) (tp : RTree) : RTree × RTree :=
  let l0 : RTree := if bn then .nil else tn
  let r0 : RTree := if bn then tn else .nil
  (if bp then l0 else tp, if bp then tp else r0)

/-- The freshly created, locked node of `bgp_node_get`:
`bgp_node_set` (zeroed record, prefix copied) followed by
`new->prn = prn` and `bgp_lock_node (new)`. -/
def newLeaf (p : Pfx) (prn : Option Nat) : NodeData :=
  { zeroNode p with lock := 1, prn := prn }

/-- The body of `bgp_node_get`, recursively over the trie.  Returns the
updated (sub)tree, the root path of the returned node within it, and the
number of `table->count++` executed.  The four outcomes of the C loop:
exact match (lock, return), descend, attach as new leaf (when the selected
child slot / `top` is NULL), and divergence (splice a glue node whose
prefix is `route_common (node->p, p)` in place of the current node). -/
def getGo : RTree → Pfx → Option Nat → RTree × List Bool × Nat
  | .nil, p, prn => (.node (newLeaf p prn) .nil .nil, [], 1)
  | .node d l r, p, prn =>
    if d.p.prefixlen ≤ p.prefixlen ∧ prefix_match d.p p then
      if d.p.prefixlen = p.prefixlen then
        (.node { d with lock := d.lock + 1 } l r, [], 0)
      else
        if prefix_bit p.bytes d.p.prefixlen then
          if isNil r then (.node d l (.node (newLeaf p prn) .nil .nil), [true], 1)
          else
            (.node d l (getGo r p prn).1, true :: (getGo r p prn).2.1, (getGo r p prn).2.2)
        else
          if isNil l then (.node d (.node (newLeaf p prn) .nil .nil) r, [false], 1)
          else
            (.node d (getGo l p prn).1 r, false :: (getGo l p prn).2.1, (getGo l p prn).2.2)
    else
      let com := route_common d.p p
      let bn := prefix_bit d.p.bytes com.prefixlen
      if com.prefixlen ≠ p.prefixlen then
        let (gl, gr) := place2 bn (.node d l r) (prefix_bit p.bytes com.prefixlen)
                          (.node (newLeaf p prn) .nil .nil)
        (.node (zeroNode com) gl gr, [prefix_bit p.bytes com.prefixlen], 2)
      else
        (.node { zeroNode com with lock := 1, prn := prn }
           (if bn then .nil else .node d l r) (if bn then .node d l r else .nil), [], 1)

/-- `struct bgp_table`: the root pointer and the node count (the lock,
AFI/SAFI tags and owner are independent of the trie operations; the owner
back-reference appears in the teardown model). -/
structure Table where
  top : RTree
  count : Nat
deriving DecidableEq, Repr

/-- `bgp_table_init`: fresh table, no nodes. -/
def bgp_table_init : Table := { top := .nil, count := 0 }

/-- `bgp_node_get`: find or add the node for `p`, returning the updated
table and the root path of the returned (locked) node. -/
def bgp_node_get (tbl : Table) (p : Pfx) (prn : Option Nat) : Table × List Bool :=
  let (t', bs, k) := getGo tbl.top p prn
  ({ top := t', count := tbl.count + k }, bs)

/-- The descent loop of `bgp_node_match`: while the current node covers the
input remember the last node with non-null `info`, then keep descending. -/
def matchGo : RTree → Pfx → List Bool → Option (List Bool) → Option (List Bool)
  | .nil, _, _, best => best
  | .node d l r, p, here, best =>
    if d.p.prefixlen ≤ p.prefixlen ∧ prefix_match d.p p then
      let best' := if d.info then some here else best
      if prefix_bit p.bytes d.p.prefixlen then matchGo r p (here ++ [true]) best'
      else matchGo l p (here ++ [false]) best'
    else best

/-- `bgp_node_match`: longest prefix match; locks the matched node. -/
def bgp_node_match (tbl : Table) (p : Pfx) : Table × Option (List Bool) :=
  match matchGo tbl.top p [] none with
  | some bs => ({ tbl with top := bumpAt tbl.top bs }, some bs)
  | none => (tbl, none)

/-- `bgp_node_match_ipv4`: host-length IPv4 prefix built from the address. -/
def bgp_node_match_ipv4 (tbl : Table) (addr : List Nat) : Table × Option (List Bool) :=
  bgp_node_match tbl ⟨32, addr⟩

/-- `bgp_node_match_ipv6`: host-length IPv6 prefix built from the address. -/
def bgp_node_match_ipv6 (tbl : Table) (addr : List Nat) : Table × Option (List Bool) :=
  bgp_node_match tbl ⟨128, addr⟩

/-- The descent loop of `bgp_node_lookup`: return the current node iff its
prefix length equals the input's and its `info` is non-null. -/
def lookupGo : RTree → Pfx → List Bool → Option (List Bool)
  | .nil, _, _ => none
  | .node d l r, p, here =>
    if d.p.prefixlen ≤ p.prefixlen ∧ prefix_match d.p p then
      if d.p.prefixlen = p.prefixlen ∧ d.info then some here
      else
        if prefix_bit p.bytes d.p.prefixlen then lookupGo r p (here ++ [true])
        else lookupGo l p (here ++ [false])
    else none

/-- `bgp_node_lookup`: exact lookup; locks the node on success. -/
def bgp_node_lookup (tbl : Table) (p : Pfx) : Table × Option (List Bool) :=
  match lookupGo tbl.top p [] with
  | some bs => ({ tbl with top := bumpAt tbl.top bs }, some bs)
  | none => (tbl, none)

/-- `bgp_table_count`. -/
def bgp_table_count (tbl : Table) : Nat := tbl.count

/-- The root path of the node `bgp_node_get` would return for `p` without
inserting, if it already exists: the descent of the `get` loop up to an
exact-length covering node.  Used to model a caller-held pointer. -/
def findPath : RTree → Pfx → List Bool → Option (List Bool)
  | .nil, _, _ => none
  | .node d l r, p, here =>
    if d.p.prefixlen ≤ p.prefixlen ∧ prefix_match d.p p then
      if d.p.prefixlen = p.prefixlen then some here
      else
        if prefix_bit p.bytes d.p.prefixlen then findPath r p (here ++ [true])
        else findPath l p (here ++ [false])
    else none

/-- The unlink step of `bgp_node_delete`, entered with the node's lock at 0
(its `info`/`on_wq` preconditions are asserted by the C and stated as
hypotheses of the theorems).  Returns the replacement subtree, the number
of nodes freed (`table->count--` count) and whether the node was actually
unlinked (in the C, only then does the recursion into the parent run). -/
def nodeDelete1 (d : NodeData) (l r : RTree) : RTree × Nat × Bool :=
  if ¬isNil l ∧ ¬isNil r then (.node d l r, 0, false)
  else (if ¬isNil l then l else r, 1, true)

/-- `bgp_node_delete` on the node at the given root path, including the
recursion into parents: after the child at `b :: bs` is spliced out, the
parent is deleted in turn whenever its lock is 0. -/
def delGo : RTree → List Bool → RTree × Nat × Bool
  | .nil, _ => (.nil, 0, false)
  | .node d l r, [] => nodeDelete1 d l r
  | .node d l r, b :: bs =>
      let res := delGo (if b then r else l) bs
      let l' := if b then l else res.1
      let r' := if b then res.1 else r
      if res.2.2 ∧ d.lock = 0 then
        ((nodeDelete1 d l' r').1, res.2.1 + (nodeDelete1 d l' r').2.1,
          (nodeDelete1 d l' r').2.2)
      else (.node d l' r', res.2.1, false)

/-- `bgp_unlock_node` on the node at the given root path: decrement the
lock; at zero, enter `bgp_node_delete`.  Returns the new tree and the
number of nodes freed. -/
def unlockGo (t : RTree) (bs : List Bool) : RTree × Nat :=
  match nodeAt t bs with
  | none => (t, 0)
  | some d =>
      if d.lock = 1 then
        let (t', k, _) := delGo (modifyAt t bs fun d => { d with lock := 0 }) bs
        (t', k)
      else (modifyAt t bs (fun d => { d with lock := d.lock - 1 }), 0)

/-- `bgp_unlock_node` at table level, by root path. -/
def bgp_unlock_node (tbl : Table) (bs : List Bool) : Table :=
  let (t', k) := unlockGo tbl.top bs
  { top := t', count := tbl.count - k }

/-- One caller-visible operation for the insert/release histories of the
invariant claims: `get` a prefix, or `unlock` the node previously obtained
for a prefix.  An `unlock` whose node does not exist or whose lock is
already 0 would fail the C's assertion, so it is skipped. -/
inductive Op where
  | get (p : Pfx) (prn : Option Nat)
  | unlock (q : Pfx)

/-- Apply one operation to the table. -/
def applyOp (tbl : Table) : Op → Table
  | .get p prn => (bgp_node_get tbl p prn).1
  | .unlock q =>
      match findPath tbl.top q [] with
      | none => tbl
      | some bs =>
          match nodeAt tbl.top bs with
          | none => tbl
          | some d => if 0 < d.lock then bgp_unlock_node tbl bs else tbl

/-- Run a history of operations from a fresh table. -/
def runOps (ops : List Op) : Table := ops.foldl applyOp bgp_table_init

/-- The per-node checks of `bgp_table_node_check` for one child slot:
back-pointer (implicit here), strictly longer prefix, prefix matches the
parent's to the parent's length, and the bit at the parent's length selects
the slot. -/
def goodChild (d : NodeData) (b : Bool) : RTree → Bool
  | .nil => true
  | .node cd _ _ =>
      decide (d.p.prefixlen < cd.p.prefixlen) && prefix_match d.p cd.p &&
        (prefix_bit cd.p.bytes d.p.prefixlen == b)

/-- The structural part of `bgp_table_check`: every node has a canonical
prefix and correctly shaped children. -/
def wfT : RTree → Bool
  | .nil => true
  | .node d l r =>
      prefix_check d.p && goodChild d false l && goodChild d true r && wfT l && wfT r

/-- The counting part of `bgp_table_node_check`: decrement the running
count once per visited node (the C also asserts it never hits 0 early). -/
def nodeCheckCount : RTree → Nat → Nat
  | .nil, c => c
  | .node _ l r, c =>
      let c1 := c - 1
      let c2 := if isNil l then c1 else nodeCheckCount l c1
      if isNil r then c2 else nodeCheckCount r c2

/-- Lock-discipline shape used by the iteration claims: every node is
externally locked or is a glue point with both children (the state of any
table built purely by insertions). -/
def lockSafe : RTree → Bool
  | .nil => true
  | .node d l r => (0 < d.lock || (!isNil l && !isNil r)) && lockSafe l && lockSafe r

/-- The node-by-node teardown assertion of `bgp_table_free`:
`info == NULL && adj_outs == NULL && adj_ins == NULL && !on_wq`. -/
def freeClean (d : NodeData) : Bool :=
  !d.info && !d.adj_outs && !d.adj_ins && !d.on_wq

/-- The teardown loop of `bgp_table_free`: free children first, then the
node, decrementing `count` once per node and never reading any lock.
Returns the final count and the conjunction of the per-node assertions. -/
def tableFreeGo : RTree → Nat → Nat × Bool
  | .nil, c => (c, true)
  | .node d l r, c =>
      ((tableFreeGo r (tableFreeGo l c).1).1 - 1,
        (tableFreeGo l c).2 && (tableFreeGo r (tableFreeGo l c).1).2 && freeClean d)

/-- Result of `bgp_table_free`: the count after the traversal (the C
asserts it is 0), whether every per-node assertion held, and whether
`bgp_peer_unlock (rt->owner)` was called (iff an owner was set). -/
structure FreeResult where
  countAfter : Nat
  nodesClean : Bool
  ownerUnlocked : Bool
deriving DecidableEq, Repr

/-- `bgp_table_free` (entered when the table lock reaches 0): tear down
every node, then unlock the owner if set. -/
def bgp_table_free (tbl : Table) (owner : Bool) : FreeResult :=
  let (c, ok) := tableFreeGo tbl.top tbl.count
  { countAfter := c, nodesClean := ok, ownerUnlocked := owner }

/-- Root paths of all nodes in pre-order: a node before its children, left
subtree before right. -/
def preorderPaths : RTree → List (List Bool)
  | .nil => []
  | .node _ l r =>
      [] :: ((preorderPaths l).map (List.cons false) ++ (preorderPaths r).map (List.cons true))

/-- The upward walk of `bgp_route_next`, on the reversed root path: pop the
last direction; if we were our parent's left child and the parent has a
right child, the next node is that right child; otherwise keep ascending;
at the root, the walk ends. -/
def ascendRev (t : RTree) : List Bool → Option (List Bool)
  | [] => none
  | b :: rest =>
      if b = false ∧ ¬isNil (rightOf (subAt t rest.reverse)) then
        some (rest.reverse ++ [true])
      else ascendRev t rest

/-- The upward walk of `bgp_route_next` from the node at the given path. -/
def ascend (t : RTree) (bs : List Bool) : Option (List Bool) :=
  ascendRev t bs.reverse

/-- The successor computation of `bgp_route_next` (which node comes next):
left child, else right child, else the upward walk. -/
def routeNextP (t : RTree) (bs : List Bool) : Option (List Bool) :=
  if isNil (subAt t bs) then none
  else if ¬isNil (leftOf (subAt t bs)) then some (bs ++ [false])
  else if ¬isNil (rightOf (subAt t bs)) then some (bs ++ [true])
  else ascend t bs

/-- `bgp_table_top`: lock and return `top`, or none if the table is empty
(`bgp_table_check` runs here in debug builds; its verdict is the subject of
the invariant claims). -/
def bgp_table_top (tbl : Table) : Table × Option (List Bool) :=
  if isNil tbl.top then (tbl, none)
  else ({ tbl with top := bumpAt tbl.top [] }, some [])

/-- `bgp_route_next`: compute the next node, lock it, then unlock the
handed-in node (which may delete it), preserving the next pointer. -/
def bgp_route_next (tbl : Table) (bs : List Bool) : Table × Option (List Bool) :=
  match routeNextP tbl.top bs with
  | some nxt => (bgp_unlock_node { tbl with top := bumpAt tbl.top nxt } bs, some nxt)
  | none => (bgp_unlock_node tbl bs, none)

/-- The list of nodes visited by iterating with the successor computation
alone, from a given position, with fuel. -/
def iterGo (t : RTree) : Nat → Option (List Bool) → List (List Bool)
  | 0, _ => []
  | _ + 1, none => []
  | fuel + 1, some bs => bs :: iterGo t fuel (routeNextP t bs)

/-- The full stateful iteration: repeatedly `bgp_route_next`, threading the
table (hand-off locks and possible deletions included).  Returns the
visited paths and the final table. -/
def iterS (tbl : Table) : Nat → Option (List Bool) → List (List Bool) × Table
  | 0, _ => ([], tbl)
  | _ + 1, none => ([], tbl)
  | fuel + 1, some bs =>
      (bs :: (iterS (bgp_route_next tbl bs).1 fuel (bgp_route_next tbl bs).2).1,
        (iterS (bgp_route_next tbl bs).1 fuel (bgp_route_next tbl bs).2).2)

/-- `bgp_node_delete` at table level: unlink (with parent recursion) and
decrement `count` once per freed node. -/
def bgp_node_delete (tbl : Table) (bs : List Bool) : Table :=
  let (t', k, _) := delGo tbl.top bs
  { top := t', count := tbl.count - k }

/-- Rewrite every lock counter (for the statement that teardown never
consults them). -/
def mapLocks (f : Nat → Nat) : RTree → RTree
  | .nil => .nil
  | .node d l r => .node { d with lock := f d.lock } (mapLocks f l) (mapLocks f r)

/-- A table built from empty by a sequence of insertions only. -/
def runGets (l : List (Pfx × Option Nat)) : Table :=
  l.foldl (fun tbl pq => (bgp_node_get tbl pq.1 pq.2).1) bgp_table_init

/-! ## Bit-level lemmas -/

theorem prefix_bit_eq_testBit (bs : List Nat) (n : Nat) :
    prefix_bit bs n = (byteAt bs (n / 8)).testBit (7 - n % 8) := by
  simp [prefix_bit, Nat.shiftRight_eq_div_pow, Nat.testBit_to_div_mod]

theorem two_pow_and_eq_zero_iff (j x : Nat) : (2 ^ j &&& x = 0) ↔ x.testBit j = false := by
  constructor
  · intro h
    by_contra hb
    have hb' : x.testBit j = true := by revert hb; cases x.testBit j <;> simp
    have hj : (2 ^ j &&& x).testBit j = true := by
      simp [Nat.testBit_and, Nat.testBit_two_pow_self, hb']
    rw [h] at hj
    simp at hj
  · intro h
    apply Nat.eq_of_testBit_eq
    intro m
    rcases eq_or_ne j m with rfl | hne
    · simp [Nat.testBit_and, h]
    · simp [Nat.testBit_and, Nat.testBit_two_pow_of_ne hne]

theorem byteAt_range_map_append (g : Nat → Nat) (i x j : Nat) :
    byteAt ((List.range i).map g ++ [x]) j =
      if j < i then g j else if j = i then x else 0 := by
  unfold byteAt
  rcases lt_trichotomy j i with h | rfl | h
  · rw [List.getD_eq_getElem?_getD, List.getElem?_append_left (by simpa using h)]
    simp [List.getElem?_map, List.getElem?_range h, h]
  · rw [List.getD_eq_getElem?_getD, List.getElem?_append_right (by simp)]
    simp
  · rw [List.getD_eq_getElem?_getD, List.getElem?_append_right (by simp; omega)]
    have h1 : ¬ j < i := by omega
    have h2 : j ≠ i := by omega
    have hn : ([x] : List Nat)[j - i]? = none := List.getElem?_eq_none (by simp; omega)
    simp [hn, h1, h2]

theorem byteAt_range_map (g : Nat → Nat) (i j : Nat) :
    byteAt ((List.range i).map g) j = if j < i then g j else 0 := by
  unfold byteAt
  rcases lt_or_ge j i with h | h
  · simp [List.getD_eq_getElem?_getD, List.getElem?_map, List.getElem?_range h, h]
  · have h1 : ¬ j < i := by omega
    have hn : (List.range i)[j]? = none := List.getElem?_eq_none (by simpa using h)
    simp [List.getD_eq_getElem?_getD, hn, h1]

theorem maskbit_testBit (q u : Nat) (hq : q ≤ 8) (hu : u ≤ 7) :
    (maskbit q).testBit (7 - u) = decide (u < q) := by
  interval_cases q <;> interval_cases u <;> decide

theorem maskbit_testBit_high (q s : Nat) (hs : 8 ≤ s) : (maskbit q).testBit s = false := by
  apply Nat.testBit_lt_two_pow
  calc maskbit q < 2 ^ 8 := by
        unfold maskbit
        rcases q with _|_|_|_|_|_|_|_|_|q
        iterate 9 decide
        rw [List.getD_eq_getElem?_getD, List.getElem?_eq_none (by simp)]
        decide
    _ ≤ 2 ^ s := Nat.pow_le_pow_right (by norm_num) hs

theorem rcByteScan_spec (np pp : List Nat) :
    ∀ fuel i, i ≤ rcByteScan np pp i fuel ∧ rcByteScan np pp i fuel ≤ i + fuel ∧
      (∀ j, i ≤ j → j < rcByteScan np pp i fuel → byteAt np j = byteAt pp j) := by
  intro fuel
  induction fuel with
  | zero => intro i; simp [rcByteScan]; omega
  | succ fuel ih =>
    intro i
    rw [rcByteScan]
    by_cases h : byteAt np i = byteAt pp i
    · rw [if_pos h]
      obtain ⟨h1, h2, h3⟩ := ih (i + 1)
      refine ⟨by omega, by omega, ?_⟩
      intro j hij hjr
      rcases eq_or_lt_of_le hij with rfl | hij'
      · exact h
      · exact h3 j hij' hjr
    · rw [if_neg h]
      exact ⟨le_refl i, by omega, fun j hij hjr => absurd (lt_of_le_of_lt hij hjr) (lt_irrefl i)⟩

theorem rcBitScan_spec (plen diff : Nat) :
    ∀ fuel len mask, len ≤ plen → plen ≤ len + fuel →
      ∃ k, rcBitScan plen diff len mask fuel = len + k ∧
        (∀ j, j < k → (mask >>> j) &&& diff = 0) ∧
        (len + k = plen ∨ (len + k < plen ∧ (mask >>> k) &&& diff ≠ 0)) := by
  intro fuel
  induction fuel with
  | zero =>
    intro len mask h1 h2
    refine ⟨0, by rw [rcBitScan]; omega, fun j hj => absurd hj (by omega), ?_⟩
    left
    omega
  | succ fuel ih =>
    intro len mask h1 h2
    rw [rcBitScan]
    by_cases hc : len < plen ∧ mask &&& diff = 0
    · rw [if_pos hc]
      obtain ⟨k, hk1, hk2, hk3⟩ := ih (len + 1) (mask >>> 1) (by omega) (by omega)
      refine ⟨k + 1, by omega, ?_, ?_⟩
      · intro j hj
        match j with
        | 0 => simpa using hc.2
        | j' + 1 =>
          rw [Nat.add_comm j' 1, Nat.shiftRight_add]
          exact hk2 j' (by omega)
      · rw [Nat.add_comm k 1, Nat.shiftRight_add]
        rcases hk3 with h | ⟨h, hne⟩
        · left; omega
        · exact Or.inr ⟨by omega, hne⟩
    · rw [if_neg hc]
      rcases eq_or_lt_of_le h1 with rfl | hlt
      · exact ⟨0, by omega, fun j hj => absurd hj (by omega), Or.inl (by omega)⟩
      · refine ⟨0, by omega, fun j hj => absurd hj (by omega), Or.inr ⟨by omega, ?_⟩⟩
        simp only [Nat.shiftRight_zero]
        intro hz
        exact hc ⟨hlt, hz⟩

theorem rcByteScan_break (np pp : List Nat) : ∀ fuel i,
    rcByteScan np pp i fuel = i + fuel ∨
      byteAt np (rcByteScan np pp i fuel) ≠ byteAt pp (rcByteScan np pp i fuel) := by
  intro fuel
  induction fuel with
  | zero => intro i; left; rw [rcByteScan]; omega
  | succ fuel ih =>
    intro i
    rw [rcByteScan]
    by_cases h : byteAt np i = byteAt pp i
    · rw [if_pos h]
      rcases ih (i + 1) with h' | h'
      · left; omega
      · right; exact h'
    · rw [if_neg h]
      right
      exact h

theorem x80_shiftRight (j : Nat) (h : j ≤ 7) : 0x80 >>> j = 2 ^ (7 - j) := by
  interval_cases j <;> decide

theorem x80_shiftRight_high (j : Nat) (h : 8 ≤ j) : 0x80 >>> j = 0 := by
  rw [Nat.shiftRight_eq_div_pow]
  exact Nat.div_eq_of_lt (lt_of_lt_of_le (by norm_num) (Nat.pow_le_pow_right (by norm_num) h))

/-- Unfold `route_common` to its two branches. -/
theorem route_common_def (n p : Pfx) :
    route_common n p =
      if rcByteScan n.bytes p.bytes 0 (p.prefixlen / 8) * 8 ≠ p.prefixlen then
        ⟨rcBitScan p.prefixlen
            (byteAt n.bytes (rcByteScan n.bytes p.bytes 0 (p.prefixlen / 8)) ^^^
              byteAt p.bytes (rcByteScan n.bytes p.bytes 0 (p.prefixlen / 8)))
            (rcByteScan n.bytes p.bytes 0 (p.prefixlen / 8) * 8) 0x80 p.prefixlen,
          (List.range (rcByteScan n.bytes p.bytes 0 (p.prefixlen / 8))).map (byteAt n.bytes) ++
            [byteAt n.bytes (rcByteScan n.bytes p.bytes 0 (p.prefixlen / 8)) &&&
                maskbit
                  (rcBitScan p.prefixlen
                      (byteAt n.bytes (rcByteScan n.bytes p.bytes 0 (p.prefixlen / 8)) ^^^
                        byteAt p.bytes (rcByteScan n.bytes p.bytes 0 (p.prefixlen / 8)))
                      (rcByteScan n.bytes p.bytes 0 (p.prefixlen / 8) * 8) 0x80 p.prefixlen % 8)]⟩
      else
        ⟨rcByteScan n.bytes p.bytes 0 (p.prefixlen / 8) * 8,
          (List.range (rcByteScan n.bytes p.bytes 0 (p.prefixlen / 8))).map (byteAt n.bytes)⟩ := rfl

/-- Characterization of `route_common`: the result length never exceeds the
second argument's length; the result is canonical; and the result length is
the second input's, or sits on a bit where the two inputs disagree. -/
theorem route_common_spec (n p : Pfx) :
    (route_common n p).prefixlen ≤ p.prefixlen ∧
    (∀ m, (route_common n p).prefixlen ≤ m → prefix_bit (route_common n p).bytes m = false) ∧
    ((route_common n p).prefixlen = p.prefixlen ∨
      prefix_bit n.bytes (route_common n p).prefixlen ≠
        prefix_bit p.bytes (route_common n p).prefixlen) := by
  obtain ⟨hI0, hIle, hIeq⟩ := rcByteScan_spec n.bytes p.bytes (p.prefixlen / 8) 0
  rw [route_common_def]
  set I := rcByteScan n.bytes p.bytes 0 (p.prefixlen / 8) with hIdef
  have hI8 : I * 8 ≤ p.prefixlen := by
    have h1 : I * 8 ≤ (p.prefixlen / 8) * 8 := Nat.mul_le_mul_right 8 (by omega)
    have h2 : (p.prefixlen / 8) * 8 ≤ p.prefixlen := Nat.div_mul_le_self _ _
    omega
  by_cases hc : I * 8 = p.prefixlen
  · rw [if_neg (by omega)]
    simp only
    refine ⟨by omega, ?_, Or.inl hc⟩
    intro m hm
    rw [prefix_bit_eq_testBit, byteAt_range_map]
    have hdm := Nat.div_add_mod m 8
    have hmm : m % 8 < 8 := Nat.mod_lt _ (by norm_num)
    have : ¬ m / 8 < I := by omega
    simp [this]
  · rw [if_pos hc]
    set diff := byteAt n.bytes I ^^^ byteAt p.bytes I with hdiffdef
    obtain ⟨k, hL, hclear, hstop⟩ :=
      rcBitScan_spec p.prefixlen diff p.prefixlen (I * 8) 0x80 hI8 (by omega)
    rw [hL]
    simp only
    refine ⟨by omega, ?_, ?_⟩
    · -- canonical: bits at positions ≥ I*8 + k are zero
      intro m hm
      rw [prefix_bit_eq_testBit, byteAt_range_map_append]
      have hdm := Nat.div_add_mod m 8
      have hmm : m % 8 < 8 := Nat.mod_lt _ (by norm_num)
      have hnotlt : ¬ m / 8 < I := by omega
      by_cases hmi : m / 8 = I
      · -- within the masked byte: k ≤ m % 8, so the mask clears the bit
        have hk7 : k ≤ 7 := by omega
        have hkm : (I * 8 + k) % 8 = k := by omega
        rw [if_neg hnotlt, if_pos hmi, hkm, Nat.testBit_and,
          maskbit_testBit k (m % 8) (by omega) (by omega)]
        have : ¬ m % 8 < k := by omega
        simp [this]
      · rw [if_neg hnotlt, if_neg hmi]
        simp
    · -- maximal: either the stop is p's length, or the inputs differ there
      rcases hstop with h | ⟨hlt, hne⟩
      · exact Or.inl h
      · right
        have hk7 : k ≤ 7 := by
          by_contra hk
          rw [x80_shiftRight_high k (by omega)] at hne
          simp at hne
        rw [x80_shiftRight k hk7] at hne
        have hbit : diff.testBit (7 - k) = true := by
          cases hb : diff.testBit (7 - k)
          · exact absurd ((two_pow_and_eq_zero_iff (7 - k) diff).mpr hb) hne
          · rfl
        rw [hdiffdef, Nat.testBit_xor] at hbit
        have hdm : (I * 8 + k) / 8 = I := by omega
        have hmm : (I * 8 + k) % 8 = k := by omega
        rw [prefix_bit_eq_testBit, prefix_bit_eq_testBit, hdm, hmm]
        revert hbit
        cases (byteAt n.bytes I).testBit (7 - k) <;> cases (byteAt p.bytes I).testBit (7 - k) <;>
          simp

theorem byteAt_lt_of_bytesOk {q : Pfx} (h : bytesOk q = true) (i : Nat) :
    byteAt q.bytes i < 256 := by
  unfold byteAt
  rw [List.getD_eq_getElem?_getD]
  cases he : q.bytes[i]? with
  | none => simp
  | some x =>
    have hx : x ∈ q.bytes := List.getElem?_mem he
    have := (List.all_eq_true.mp h) x hx
    simpa using this

/-- On machine bytes, `route_common` copies the common leading bits: below
the result length, the result's bits are the first input's, which agree
with the second input's. -/
theorem route_common_bits (n p : Pfx) (hn : bytesOk n = true) (hp : bytesOk p = true) :
    ∀ m, m < (route_common n p).prefixlen →
      prefix_bit (route_common n p).bytes m = prefix_bit n.bytes m ∧
      prefix_bit n.bytes m = prefix_bit p.bytes m := by
  obtain ⟨hI0, hIle, hIeq⟩ := rcByteScan_spec n.bytes p.bytes (p.prefixlen / 8) 0
  rw [route_common_def]
  set I := rcByteScan n.bytes p.bytes 0 (p.prefixlen / 8) with hIdef
  have hI8 : I * 8 ≤ p.prefixlen := by
    have h1 : I * 8 ≤ (p.prefixlen / 8) * 8 := Nat.mul_le_mul_right 8 (by omega)
    have h2 : (p.prefixlen / 8) * 8 ≤ p.prefixlen := Nat.div_mul_le_self _ _
    omega
  by_cases hc : I * 8 = p.prefixlen
  · rw [if_neg (by omega)]
    simp only
    intro m hm
    have hdm := Nat.div_add_mod m 8
    have hmm : m % 8 < 8 := Nat.mod_lt _ (by norm_num)
    have hmi : m / 8 < I := by omega
    constructor
    · rw [prefix_bit_eq_testBit, prefix_bit_eq_testBit, byteAt_range_map]
      simp [hmi]
    · rw [prefix_bit_eq_testBit, prefix_bit_eq_testBit, hIeq (m / 8) (by omega) (by omega)]
  · rw [if_pos hc]
    set diff := byteAt n.bytes I ^^^ byteAt p.bytes I with hdiffdef
    obtain ⟨k, hL, hclear, hstop⟩ :=
      rcBitScan_spec p.prefixlen diff p.prefixlen (I * 8) 0x80 hI8 (by omega)
    rw [hL]
    simp only
    -- on machine bytes the scan stops within the byte
    have hk7 : k ≤ 7 := by
      by_contra hk
      have hdz : diff = 0 := by
        apply Nat.eq_of_testBit_eq
        intro j
        rcases le_or_lt j 7 with hj | hj
        · have h0 := hclear (7 - j) (by omega)
          rw [x80_shiftRight (7 - j) (by omega)] at h0
          have h0' := (two_pow_and_eq_zero_iff (7 - (7 - j)) diff).mp h0
          rw [show 7 - (7 - j) = j by omega] at h0'
          simp [h0']
        · have hdlt : diff < 2 ^ j := by
            have h8 : diff < 2 ^ 8 := by
              rw [hdiffdef]
              exact Nat.xor_lt_two_pow
                (by rw [show (2:Nat) ^ 8 = 256 by norm_num]; exact byteAt_lt_of_bytesOk hn I)
                (by rw [show (2:Nat) ^ 8 = 256 by norm_num]; exact byteAt_lt_of_bytesOk hp I)
            calc diff < 2 ^ 8 := h8
              _ ≤ 2 ^ j := Nat.pow_le_pow_right (by norm_num) hj
          simp [Nat.testBit_lt_two_pow hdlt]
      -- then the byte scan never broke: I is the full byte count
      have hIeqI : byteAt n.bytes I = byteAt p.bytes I := Nat.xor_eq_zero.mp (hdiffdef ▸ hdz)
      have hIfull : I = p.prefixlen / 8 := by
        rcases rcByteScan_break n.bytes p.bytes (p.prefixlen / 8) 0 with h | h
        · rw [← hIdef] at h; omega
        · rw [← hIdef] at h; exact absurd hIeqI h
      have hpm := Nat.div_add_mod p.prefixlen 8
      have hpm8 : p.prefixlen % 8 < 8 := Nat.mod_lt _ (by norm_num)
      rcases hstop with h | ⟨hlt, hne⟩
      · omega
      · rw [x80_shiftRight_high k (by omega)] at hne
        simp at hne
    have hagree : ∀ u, u ≤ 7 → u < k → (byteAt n.bytes I).testBit (7 - u) =
        (byteAt p.bytes I).testBit (7 - u) := by
      intro u hu7 huk
      have h0 := hclear u huk
      rw [x80_shiftRight u hu7] at h0
      have h0' := (two_pow_and_eq_zero_iff (7 - u) diff).mp h0
      rw [hdiffdef, Nat.testBit_xor] at h0'
      revert h0'
      cases (byteAt n.bytes I).testBit (7 - u) <;> cases (byteAt p.bytes I).testBit (7 - u) <;>
        simp
    intro m hm
    have hdm := Nat.div_add_mod m 8
    have hmm : m % 8 < 8 := Nat.mod_lt _ (by norm_num)
    by_cases hmi : m / 8 < I
    · constructor
      · rw [prefix_bit_eq_testBit, prefix_bit_eq_testBit, byteAt_range_map_append]
        simp [hmi]
      · rw [prefix_bit_eq_testBit, prefix_bit_eq_testBit, hIeq (m / 8) (by omega) (by omega)]
    · have hmi' : m / 8 = I := by omega
      have hkm : (I * 8 + k) % 8 = k := by omega
      have humk : m % 8 < k := by omega
      constructor
      · rw [prefix_bit_eq_testBit, prefix_bit_eq_testBit, byteAt_range_map_append]
        rw [if_neg hmi, if_pos hmi', hmi', hkm, Nat.testBit_and,
          maskbit_testBit k (m % 8) (by omega) (by omega)]
        simp [humk]
      · rw [prefix_bit_eq_testBit, prefix_bit_eq_testBit, hmi']
        exact hagree (m % 8) (by omega) humk

/-- Equal inputs: the common prefix keeps the full input length. -/
theorem route_common_self (a : Pfx) : (route_common a a).prefixlen = a.prefixlen := by
  have hI : rcByteScan a.bytes a.bytes 0 (a.prefixlen / 8) = a.prefixlen / 8 := by
    rcases rcByteScan_break a.bytes a.bytes (a.prefixlen / 8) 0 with h | h
    · omega
    · exact absurd rfl h
  rw [route_common_def, hI]
  have hI8 : (a.prefixlen / 8) * 8 ≤ a.prefixlen := Nat.div_mul_le_self _ _
  by_cases hc : (a.prefixlen / 8) * 8 = a.prefixlen
  · rw [if_neg (by omega)]
    exact hc
  · rw [if_pos hc]
    simp only [Nat.xor_self]
    obtain ⟨k, hL, _, hstop⟩ :=
      rcBitScan_spec a.prefixlen 0 a.prefixlen ((a.prefixlen / 8) * 8) 0x80 hI8 (by omega)
    rw [hL]
    rcases hstop with h | ⟨_, hne⟩
    · exact h
    · simp at hne

/-! ## Claim C6 -/

/-- C6, counterexample: for the canonical machine-byte prefixes
`a = 10.0.0.0/8` and `b = 10.1.0.0/16`, `route_common (a, b)` has length
15, which exceeds `min (a.length, b.length) = 8` — the claimed cap at
`min (a.length, b.length)` is false (the code caps only at `b.length`,
the second argument's). -/
theorem C6_route_common_min_counterexample :
    prefix_check ⟨8, [10, 0, 0, 0]⟩ = true ∧ prefix_check ⟨16, [10, 1, 0, 0]⟩ = true ∧
    bytesOk (Pfx.mk 8 [10, 0, 0, 0]) = true ∧ bytesOk (Pfx.mk 16 [10, 1, 0, 0]) = true ∧
    (route_common ⟨8, [10, 0, 0, 0]⟩ ⟨16, [10, 1, 0, 0]⟩).prefixlen = 15 ∧
    ¬ (route_common ⟨8, [10, 0, 0, 0]⟩ ⟨16, [10, 1, 0, 0]⟩).prefixlen ≤ min 8 16 := by
  decide

/-- C6, amended: for every pair of machine-byte prefixes `a`, `b`,
`route_common (a, b)` produces a common prefix whose length is capped at
`b.length` (the second argument's length, not `min (a.length, b.length)`):
all bits of the result beyond the resulting length are zero, below the
resulting length the result carries the common bits of `a` and `b`, the
resulting length is `b.length` or marks a bit where `a` and `b` disagree,
and for equal inputs the result has the same length as the inputs. -/
theorem C6_route_common_amended (a b : Pfx) (ha : bytesOk a = true) (hb : bytesOk b = true) :
    (route_common a b).prefixlen ≤ b.prefixlen ∧
    (∀ m, (route_common a b).prefixlen ≤ m → prefix_bit (route_common a b).bytes m = false) ∧
    (∀ m, m < (route_common a b).prefixlen →
      prefix_bit (route_common a b).bytes m = prefix_bit a.bytes m ∧
      prefix_bit a.bytes m = prefix_bit b.bytes m) ∧
    ((route_common a b).prefixlen = b.prefixlen ∨
      prefix_bit a.bytes (route_common a b).prefixlen ≠
        prefix_bit b.bytes (route_common a b).prefixlen) ∧
    (route_common a a).prefixlen = a.prefixlen := by
  obtain ⟨h1, h2, h3⟩ := route_common_spec a b
  exact ⟨h1, h2, route_common_bits a b ha hb, h3, route_common_self a⟩

/-- C6 witness: the amended theorem applied to concrete prefixes. -/
theorem C6_route_common_amended_witness :
    (route_common ⟨8, [10, 0, 0, 0]⟩ ⟨16, [10, 1, 0, 0]⟩).prefixlen ≤ 16 ∧
    (route_common ⟨8, [10, 0, 0, 0]⟩ ⟨8, [10, 0, 0, 0]⟩).prefixlen = 8 := by
  have h := C6_route_common_amended ⟨8, [10, 0, 0, 0]⟩ ⟨16, [10, 1, 0, 0]⟩
    (by decide) (by decide)
  exact ⟨h.1, h.2.2.2.2⟩

/-- In the two-node divergence case the current node and the new leaf land
on different sides of the glue node. -/
theorem route_common_ne_bit (n p : Pfx) (h : (route_common n p).prefixlen ≠ p.prefixlen) :
    prefix_bit n.bytes (route_common n p).prefixlen ≠
      prefix_bit p.bytes (route_common n p).prefixlen :=
  ((route_common_spec n p).2.2).resolve_left h

theorem prefix_match_le {n p : Pfx} (h : prefix_match n p = true) :
    n.prefixlen ≤ p.prefixlen := by
  unfold prefix_match at h
  have := (Bool.and_eq_true _ _).mp h
  exact of_decide_eq_true this.1

theorem getGo_nil (p : Pfx) (prn : Option Nat) :
    getGo .nil p prn = (.node (newLeaf p prn) .nil .nil, [], 1) := rfl

theorem getGo_exact (d : NodeData) (l r : RTree) (p : Pfx) (prn : Option Nat)
    (hm : prefix_match d.p p = true) (he : d.p.prefixlen = p.prefixlen) :
    getGo (.node d l r) p prn = (.node { d with lock := d.lock + 1 } l r, [], 0) := by
  rw [getGo, if_pos ⟨by omega, hm⟩, if_pos he]

theorem getGo_right (d : NodeData) (l : RTree) (rd : NodeData) (rl rr : RTree)
    (p : Pfx) (prn : Option Nat)
    (hm : prefix_match d.p p = true) (he : d.p.prefixlen ≠ p.prefixlen)
    (hb : prefix_bit p.bytes d.p.prefixlen = true) :
    getGo (.node d l (.node rd rl rr)) p prn =
      ((.node d l (getGo (.node rd rl rr) p prn).1 : RTree),
        true :: (getGo (.node rd rl rr) p prn).2.1, (getGo (.node rd rl rr) p prn).2.2) := by
  have hle : d.p.prefixlen ≤ p.prefixlen := by
    have := prefix_match_le hm
    omega
  rw [getGo, if_pos ⟨hle, hm⟩, if_neg he, if_pos hb]
  simp [isNil]

theorem getGo_right_nil (d : NodeData) (l : RTree) (p : Pfx) (prn : Option Nat)
    (hm : prefix_match d.p p = true) (he : d.p.prefixlen ≠ p.prefixlen)
    (hb : prefix_bit p.bytes d.p.prefixlen = true) :
    getGo (.node d l .nil) p prn =
      (.node d l (.node (newLeaf p prn) .nil .nil), [true], 1) := by
  have hle : d.p.prefixlen ≤ p.prefixlen := by
    have := prefix_match_le hm
    omega
  rw [getGo, if_pos ⟨hle, hm⟩, if_neg he, if_pos hb]
  simp [isNil]

theorem getGo_left (d : NodeData) (ld : NodeData) (ll lr : RTree) (r : RTree)
    (p : Pfx) (prn : Option Nat)
    (hm : prefix_match d.p p = true) (he : d.p.prefixlen ≠ p.prefixlen)
    (hb : prefix_bit p.bytes d.p.prefixlen = false) :
    getGo (.node d (.node ld ll lr) r) p prn =
      ((.node d (getGo (.node ld ll lr) p prn).1 r : RTree),
        false :: (getGo (.node ld ll lr) p prn).2.1, (getGo (.node ld ll lr) p prn).2.2) := by
  have hle : d.p.prefixlen ≤ p.prefixlen := by
    have := prefix_match_le hm
    omega
  rw [getGo, if_pos ⟨hle, hm⟩, if_neg he, if_neg (by simp [hb])]
  simp [isNil]

theorem getGo_left_nil (d : NodeData) (r : RTree) (p : Pfx) (prn : Option Nat)
    (hm : prefix_match d.p p = true) (he : d.p.prefixlen ≠ p.prefixlen)
    (hb : prefix_bit p.bytes d.p.prefixlen = false) :
    getGo (.node d .nil r) p prn =
      (.node d (.node (newLeaf p prn) .nil .nil) r, [false], 1) := by
  have hle : d.p.prefixlen ≤ p.prefixlen := by
    have := prefix_match_le hm
    omega
  rw [getGo, if_pos ⟨hle, hm⟩, if_neg he, if_neg (by simp [hb])]
  simp [isNil]

theorem getGo_diverge_two (d : NodeData) (l r : RTree) (p : Pfx) (prn : Option Nat)
    (hm : ¬ (d.p.prefixlen ≤ p.prefixlen ∧ prefix_match d.p p = true))
    (hc : (route_common d.p p).prefixlen ≠ p.prefixlen) :
    getGo (.node d l r) p prn =
      (.node (zeroNode (route_common d.p p))
          (place2 (prefix_bit d.p.bytes (route_common d.p p).prefixlen) (.node d l r)
            (prefix_bit p.bytes (route_common d.p p).prefixlen)
            (.node (newLeaf p prn) .nil .nil)).1
          (place2 (prefix_bit d.p.bytes (route_common d.p p).prefixlen) (.node d l r)
            (prefix_bit p.bytes (route_common d.p p).prefixlen)
            (.node (newLeaf p prn) .nil .nil)).2,
        [prefix_bit p.bytes (route_common d.p p).prefixlen], 2) := by
  rw [getGo, if_neg hm, if_pos hc]

theorem getGo_diverge_glue (d : NodeData) (l r : RTree) (p : Pfx) (prn : Option Nat)
    (hm : ¬ (d.p.prefixlen ≤ p.prefixlen ∧ prefix_match d.p p = true))
    (hc : (route_common d.p p).prefixlen = p.prefixlen) :
    getGo (.node d l r) p prn =
      (.node { zeroNode (route_common d.p p) with lock := 1, prn := prn }
          (if prefix_bit d.p.bytes (route_common d.p p).prefixlen then .nil else .node d l r)
          (if prefix_bit d.p.bytes (route_common d.p p).prefixlen then .node d l r else .nil),
        [], 1) := by
  rw [getGo, if_neg hm, if_neg (by simp [hc])]

/-- `bgp_node_get` grows the reachable tree by exactly the number of
`table->count++` it executes. -/
theorem getGo_size : ∀ (t : RTree) (p : Pfx) (prn : Option Nat),
    size (getGo t p prn).1 = size t + (getGo t p prn).2.2 := by
  intro t
  induction t with
  | nil => intro p prn; rw [getGo_nil]; simp [size]
  | node d l r ihl ihr =>
    intro p prn
    by_cases h1 : d.p.prefixlen ≤ p.prefixlen ∧ prefix_match d.p p = true
    · by_cases h2 : d.p.prefixlen = p.prefixlen
      · rw [getGo_exact d l r p prn h1.2 h2]
        simp [size]
      · by_cases hb : prefix_bit p.bytes d.p.prefixlen
        · cases r with
          | nil =>
            rw [getGo_right_nil d l p prn h1.2 h2 hb]
            simp only [size]
            try omega
          | node rd rl rr =>
            rw [getGo_right d l rd rl rr p prn h1.2 h2 hb]
            simp only [size, ihr p prn]
            omega
        · rw [Bool.not_eq_true] at hb
          cases l with
          | nil =>
            rw [getGo_left_nil d r p prn h1.2 h2 hb]
            simp only [size]
            try omega
          | node ld ll lr =>
            rw [getGo_left d ld ll lr r p prn h1.2 h2 hb]
            simp only [size, ihl p prn]
            omega
    · by_cases hc : (route_common d.p p).prefixlen = p.prefixlen
      · rw [getGo_diverge_glue d l r p prn h1 hc]
        cases prefix_bit d.p.bytes (route_common d.p p).prefixlen <;> simp [size] <;> omega
      · rw [getGo_diverge_two d l r p prn h1 hc]
        have hbb := route_common_ne_bit d.p p hc
        cases hbn : prefix_bit d.p.bytes (route_common d.p p).prefixlen <;>
          cases hbp : prefix_bit p.bytes (route_common d.p p).prefixlen <;>
            rw [hbn, hbp] at hbb <;>
              first
                | exact absurd rfl hbb
                | (simp [place2, size]; omega)

theorem nodeDelete1_size (d : NodeData) (l r : RTree) :
    size (nodeDelete1 d l r).1 + (nodeDelete1 d l r).2.1 = size (.node d l r) := by
  cases l <;> cases r <;> simp [nodeDelete1, isNil, size] <;> omega

/-- `bgp_node_delete` shrinks the reachable tree by exactly the number of
`table->count--` it executes. -/
theorem delGo_size : ∀ (t : RTree) (bs : List Bool),
    size (delGo t bs).1 + (delGo t bs).2.1 = size t := by
  intro t
  induction t with
  | nil => intro bs; cases bs <;> simp [delGo, size]
  | node d l r ihl ihr =>
    intro bs
    cases bs with
    | nil => exact nodeDelete1_size d l r
    | cons b bs =>
      rw [delGo]
      by_cases hcasc : (delGo (if b then r else l) bs).2.2 = true ∧ d.lock = 0
      · rw [if_pos hcasc]
        simp only
        cases b with
        | false =>
          have h := nodeDelete1_size d (delGo l bs).1 r
          have h2 := ihl bs
          simp [size] at *
          omega
        | true =>
          have h := nodeDelete1_size d l (delGo r bs).1
          have h2 := ihr bs
          simp [size] at *
          omega
      · rw [if_neg hcasc]
        simp only
        cases b with
        | false =>
          have h2 := ihl bs
          simp [size] at *
          omega
        | true =>
          have h2 := ihr bs
          simp [size] at *
          omega

theorem modifyAt_size : ∀ (t : RTree) (bs : List Bool) (f : NodeData → NodeData),
    size (modifyAt t bs f) = size t := by
  intro t
  induction t with
  | nil => intro bs f; cases bs <;> rfl
  | node d l r ihl ihr =>
    intro bs f
    cases bs with
    | nil => rfl
    | cons b bs =>
      cases b <;> simp [modifyAt, size, ihl, ihr]

theorem unlockGo_size (t : RTree) (bs : List Bool) :
    size (unlockGo t bs).1 + (unlockGo t bs).2 = size t := by
  unfold unlockGo
  cases hd : nodeAt t bs with
  | none => simp
  | some d =>
    simp only
    by_cases hl : d.lock = 1
    · rw [if_pos hl]
      have h := delGo_size (modifyAt t bs fun d => { d with lock := 0 }) bs
      rw [modifyAt_size] at h
      simpa using h
    · rw [if_neg hl]
      simp [modifyAt_size]

theorem applyOp_count (tbl : Table) (op : Op) (h : tbl.count = size tbl.top) :
    (applyOp tbl op).count = size (applyOp tbl op).top := by
  cases op with
  | get p prn =>
    rcases hg : getGo tbl.top p prn with ⟨t', bs, k⟩
    have hs := getGo_size tbl.top p prn
    rw [hg] at hs
    simp only [applyOp, bgp_node_get, hg]
    simp at hs ⊢
    omega
  | unlock q =>
    rw [applyOp]
    cases hf : findPath tbl.top q [] with
    | none => exact h
    | some bs =>
      simp only
      cases hd : nodeAt tbl.top bs with
      | none => exact h
      | some d =>
        simp only
        by_cases hl : 0 < d.lock
        · rw [if_pos hl]
          rcases hu : unlockGo tbl.top bs with ⟨t', k⟩
          have hs := unlockGo_size tbl.top bs
          rw [hu] at hs
          simp only [bgp_unlock_node, hu]
          simp at hs ⊢
          omega
        · rw [if_neg hl]
          exact h

theorem nodeCheckCount_eq : ∀ (t : RTree) (c : Nat), nodeCheckCount t c = c - size t := by
  intro t
  induction t with
  | nil => intro c; simp [nodeCheckCount, size]
  | node d l r ihl ihr =>
    intro c
    rw [nodeCheckCount]
    cases l <;> cases r <;> simp [isNil, ihl, ihr, size] <;> omega

/-! ## Claim C4 -/

/-- C4: after any sequence of `bgp_node_get` and `bgp_unlock_node`
operations, `table.count` equals the number of nodes reachable from
`table.top`, and the running count that `bgp_table_check` decrements once
per visited node ends at exactly zero. -/
theorem C4_count_invariant (ops : List Op) :
    (runOps ops).count = size (runOps ops).top ∧
    nodeCheckCount (runOps ops).top (runOps ops).count = 0 := by
  have hmain : ∀ (l : List Op) (tbl : Table), tbl.count = size tbl.top →
      (l.foldl applyOp tbl).count = size (l.foldl applyOp tbl).top := by
    intro l
    induction l with
    | nil => intro tbl h; exact h
    | cons op l ih => intro tbl h; exact ih _ (applyOp_count tbl op h)
  have h : (runOps ops).count = size (runOps ops).top := hmain ops bgp_table_init rfl
  refine ⟨h, ?_⟩
  rw [nodeCheckCount_eq, h]
  omega

/-! ## Claim C2 -/

/-- C2: in `bgp_node_get`'s divergence case a glue node with prefix
`route_common (current.prefix, input)` is spliced in place of the current
node, with the current node linked beneath it on the side selected by its
bit at the glue's length.  If the glue's length equals the input length the
glue itself is returned with one lock and the count rises by exactly 1;
otherwise a second node for the input prefix is linked beneath the glue on
the side of the input's bit (a different side), the count rises by exactly
2, and the new node is returned with one lock.  The splice happens in place
of the current node — under its former parent (the descent congruence), or
as `top` (the table-level equation). -/
theorem C2_get_divergence (d : NodeData) (l r : RTree) (p : Pfx) (prn : Option Nat) :
    (¬ (d.p.prefixlen ≤ p.prefixlen ∧ prefix_match d.p p = true) →
      ((route_common d.p p).prefixlen = p.prefixlen →
        getGo (.node d l r) p prn =
          (.node { zeroNode (route_common d.p p) with lock := 1, prn := prn }
              (if prefix_bit d.p.bytes (route_common d.p p).prefixlen then .nil
                else .node d l r)
              (if prefix_bit d.p.bytes (route_common d.p p).prefixlen then .node d l r
                else .nil),
            [], 1)) ∧
      ((route_common d.p p).prefixlen ≠ p.prefixlen →
        prefix_bit d.p.bytes (route_common d.p p).prefixlen ≠
            prefix_bit p.bytes (route_common d.p p).prefixlen ∧
        (getGo (.node d l r) p prn).2.2 = 2 ∧
        (getGo (.node d l r) p prn).2.1 =
          [prefix_bit p.bytes (route_common d.p p).prefixlen] ∧
        nodeAt (getGo (.node d l r) p prn).1 [] = some (zeroNode (route_common d.p p)) ∧
        subAt (getGo (.node d l r) p prn).1
            [prefix_bit d.p.bytes (route_common d.p p).prefixlen] = .node d l r ∧
        subAt (getGo (.node d l r) p prn).1
            [prefix_bit p.bytes (route_common d.p p).prefixlen] =
          .node (newLeaf p prn) .nil .nil ∧
        (newLeaf p prn).lock = 1)) ∧
    (∀ rd rl rr, prefix_match d.p p = true → d.p.prefixlen ≠ p.prefixlen →
      prefix_bit p.bytes d.p.prefixlen = true →
      getGo (.node d l (.node rd rl rr)) p prn =
        ((.node d l (getGo (.node rd rl rr) p prn).1 : RTree),
          true :: (getGo (.node rd rl rr) p prn).2.1,
          (getGo (.node rd rl rr) p prn).2.2)) ∧
    (∀ ld ll lr, prefix_match d.p p = true → d.p.prefixlen ≠ p.prefixlen →
      prefix_bit p.bytes d.p.prefixlen = false →
      getGo (.node d (.node ld ll lr) r) p prn =
        ((.node d (getGo (.node ld ll lr) p prn).1 r : RTree),
          false :: (getGo (.node ld ll lr) p prn).2.1,
          (getGo (.node ld ll lr) p prn).2.2)) ∧
    (∀ tbl : Table, tbl.top = .node d l r →
      bgp_node_get tbl p prn =
        ({ top := (getGo (.node d l r) p prn).1,
           count := tbl.count + (getGo (.node d l r) p prn).2.2 },
          (getGo (.node d l r) p prn).2.1)) := by
  refine ⟨?_, ?_, ?_, ?_⟩
  · intro hm
    constructor
    · intro hc
      exact getGo_diverge_glue d l r p prn hm hc
    · intro hc
      have hbb := route_common_ne_bit d.p p hc
      rw [getGo_diverge_two d l r p prn hm hc]
      cases hbn : prefix_bit d.p.bytes (route_common d.p p).prefixlen <;>
        cases hbp : prefix_bit p.bytes (route_common d.p p).prefixlen <;>
          rw [hbn, hbp] at hbb <;>
            first
              | exact absurd rfl hbb
              | exact ⟨hbb, rfl, rfl, rfl, by simp [place2, subAt, nodeAt, dataOf], rfl, rfl⟩
  · intro rd rl rr hm he hb
    exact getGo_right d l rd rl rr p prn hm he hb
  · intro ld ll lr hm he hb
    exact getGo_left d ld ll lr r p prn hm he hb
  · intro tbl htop
    rcases hg : getGo (.node d l r) p prn with ⟨t', bs, k⟩
    simp [bgp_node_get, htop, hg]

theorem prefix_match_self (q : Pfx) : prefix_match q q = true := by
  simp [prefix_match]

/-! ## Claim C10 -/

/-- C10: when the divergence case creates both a glue node and a new leaf,
the supplied `prn` is stored only on the returned leaf; the glue node's
`prn` remains `none` even when a non-`none` `prn` was supplied, so a later
`bgp_node_get` of the glue node's own prefix — with any `prn` — hits the
exact-match case on a node whose stored `prn` is `none` (and inserts
nothing). -/
theorem C10_glue_prn (d : NodeData) (l r : RTree) (p : Pfx) (prn : Option Nat)
    (hm : ¬ (d.p.prefixlen ≤ p.prefixlen ∧ prefix_match d.p p = true))
    (hc : (route_common d.p p).prefixlen ≠ p.prefixlen) :
    nodeAt (getGo (.node d l r) p prn).1 [] = some (zeroNode (route_common d.p p)) ∧
    (zeroNode (route_common d.p p)).prn = none ∧
    nodeAt (getGo (.node d l r) p prn).1 (getGo (.node d l r) p prn).2.1 =
      some (newLeaf p prn) ∧
    (newLeaf p prn).prn = prn ∧
    (∀ prn2,
      getGo (getGo (.node d l r) p prn).1 (route_common d.p p) prn2 =
        (.node { zeroNode (route_common d.p p) with lock := 1 }
            (leftOf (getGo (.node d l r) p prn).1) (rightOf (getGo (.node d l r) p prn).1),
          [], 0)) := by
  have hbb := route_common_ne_bit d.p p hc
  rw [getGo_diverge_two d l r p prn hm hc]
  have hglue : ∀ prn2 (gl gr : RTree),
      getGo (.node (zeroNode (route_common d.p p)) gl gr) (route_common d.p p) prn2 =
        (.node { zeroNode (route_common d.p p) with lock := 1 } gl gr, [], 0) := by
    intro prn2 gl gr
    exact getGo_exact (zeroNode (route_common d.p p)) gl gr (route_common d.p p) prn2
      (prefix_match_self _) rfl
  cases hbn : prefix_bit d.p.bytes (route_common d.p p).prefixlen <;>
    cases hbp : prefix_bit p.bytes (route_common d.p p).prefixlen <;>
      rw [hbn, hbp] at hbb <;>
        first
          | exact absurd rfl hbb
          | exact ⟨rfl, rfl, by simp [place2, nodeAt, subAt, dataOf], rfl,
              fun prn2 => by simp [place2, leftOf, rightOf, hglue prn2]⟩

/-- C2 witness: inserting 11.0.0.0/8 into a table holding 10.0.0.0/8
diverges at the root and creates glue plus leaf, raising the count by 2. -/
theorem C2_get_divergence_witness :
    (getGo (.node (newLeaf ⟨8, [10, 0, 0, 0]⟩ none) .nil .nil) ⟨8, [11, 0, 0, 0]⟩ none).2.2 =
      2 ∧
    (getGo (.node (newLeaf ⟨8, [10, 0, 0, 0]⟩ none) .nil .nil) ⟨8, [11, 0, 0, 0]⟩ none).2.1 =
      [prefix_bit [11, 0, 0, 0]
        (route_common ⟨8, [10, 0, 0, 0]⟩ ⟨8, [11, 0, 0, 0]⟩).prefixlen] := by
  have h := ((C2_get_divergence (newLeaf ⟨8, [10, 0, 0, 0]⟩ none) .nil .nil
      ⟨8, [11, 0, 0, 0]⟩ none).1 (by decide)).2 (by decide)
  exact ⟨h.2.1, h.2.2.1⟩

/-- C10 witness: the same divergence with a supplied `prn = some 5` leaves
the glue's `prn` at `none` while the leaf stores `some 5`. -/
theorem C10_glue_prn_witness :
    nodeAt (getGo (.node (newLeaf ⟨8, [10, 0, 0, 0]⟩ none) .nil .nil)
        ⟨8, [11, 0, 0, 0]⟩ (some 5)).1 [] =
      some (zeroNode (route_common ⟨8, [10, 0, 0, 0]⟩ ⟨8, [11, 0, 0, 0]⟩)) ∧
    (zeroNode (route_common ⟨8, [10, 0, 0, 0]⟩ ⟨8, [11, 0, 0, 0]⟩)).prn = none ∧
    (newLeaf ⟨8, [11, 0, 0, 0]⟩ (some 5)).prn = some 5 := by
  have h := C10_glue_prn (newLeaf ⟨8, [10, 0, 0, 0]⟩ none) .nil .nil
    ⟨8, [11, 0, 0, 0]⟩ (some 5) (by decide) (by decide)
  exact ⟨h.1, h.2.1, h.2.2.2.1⟩

/-! ## Claim C3 -/

/-- C3: `bgp_node_delete`, entered when a node's lock reaches 0 with null
`info` and `on_wq` false: with two children it returns without unlinking
(shape and count unchanged); otherwise it splices its sole child (if any)
into its place, one `table->count--` runs, and the record is freed.  The
recursion then enters the parent exactly when the node was unlinked and the
parent's lock is 0 (stopping at a parent with nonzero lock, and stopping
inside a parent with two children by the first clause), or at the root; the
table-level wrapper removes exactly the freed nodes from `count` and from
the reachable tree. -/
theorem C3_node_delete :
    (∀ (d : NodeData) (l r : RTree), d.lock = 0 → d.info = false → d.on_wq = false →
      ¬ isNil l → ¬ isNil r →
      delGo (.node d l r) [] = (.node d l r, 0, false)) ∧
    (∀ (d : NodeData) (c : RTree), d.lock = 0 → d.info = false → d.on_wq = false →
      delGo (.node d c .nil) [] = (c, 1, true) ∧
      delGo (.node d .nil c) [] = (c, 1, true)) ∧
    (∀ (d : NodeData) (l r : RTree) (b : Bool) (bs : List Bool),
      ((delGo (if b then r else l) bs).2.2 = true ∧ d.lock = 0 →
        delGo (.node d l r) (b :: bs) =
          ((nodeDelete1 d (if b then l else (delGo (if b then r else l) bs).1)
              (if b then (delGo (if b then r else l) bs).1 else r)).1,
            (delGo (if b then r else l) bs).2.1 +
              (nodeDelete1 d (if b then l else (delGo (if b then r else l) bs).1)
                (if b then (delGo (if b then r else l) bs).1 else r)).2.1,
            (nodeDelete1 d (if b then l else (delGo (if b then r else l) bs).1)
              (if b then (delGo (if b then r else l) bs).1 else r)).2.2)) ∧
      (¬ ((delGo (if b then r else l) bs).2.2 = true ∧ d.lock = 0) →
        delGo (.node d l r) (b :: bs) =
          (.node d (if b then l else (delGo (if b then r else l) bs).1)
              (if b then (delGo (if b then r else l) bs).1 else r),
            (delGo (if b then r else l) bs).2.1, false))) ∧
    (∀ (t : RTree) (bs : List Bool), size (delGo t bs).1 + (delGo t bs).2.1 = size t) ∧
    (∀ (tbl : Table) (bs : List Bool),
      bgp_node_delete tbl bs =
        { top := (delGo tbl.top bs).1, count := tbl.count - (delGo tbl.top bs).2.1 }) := by
  refine ⟨?_, ?_, ?_, delGo_size, ?_⟩
  · intro d l r _ _ _ hl hr
    simp [delGo, nodeDelete1, hl, hr]
  · intro d c _ _ _
    constructor
    · cases c <;> simp [delGo, nodeDelete1, isNil]
    · cases c <;> simp [delGo, nodeDelete1, isNil]
  · intro d l r b bs
    constructor
    · intro hcasc
      rw [delGo, if_pos hcasc]
    · intro hcasc
      rw [delGo, if_neg hcasc]
  · intro tbl bs
    rcases hd : delGo tbl.top bs with ⟨t', k, casc⟩
    simp [bgp_node_delete, hd]

/-- C3 witness: deleting a zero-lock glue with two children is a no-op;
deleting a zero-lock leaf under a zero-lock glue collapses both. -/
theorem C3_node_delete_witness :
    delGo (.node (zeroNode ⟨7, [10]⟩)
        (.node (newLeaf ⟨8, [10, 0, 0, 0]⟩ none) .nil .nil)
        (.node (newLeaf ⟨8, [11, 0, 0, 0]⟩ none) .nil .nil)) [] =
      (.node (zeroNode ⟨7, [10]⟩)
        (.node (newLeaf ⟨8, [10, 0, 0, 0]⟩ none) .nil .nil)
        (.node (newLeaf ⟨8, [11, 0, 0, 0]⟩ none) .nil .nil), 0, false) ∧
    delGo (.node (zeroNode ⟨7, [10]⟩) (.node (newLeaf ⟨8, [10, 0, 0, 0]⟩ none) .nil .nil)
        .nil) [] =
      ((.node (newLeaf ⟨8, [10, 0, 0, 0]⟩ none) .nil .nil : RTree), 1, true) := by
  constructor
  · exact C3_node_delete.1 (zeroNode ⟨7, [10]⟩) _ _ rfl rfl rfl (by decide) (by decide)
  · exact (C3_node_delete.2.1 (zeroNode ⟨7, [10]⟩)
      (.node (newLeaf ⟨8, [10, 0, 0, 0]⟩ none) .nil .nil) rfl rfl rfl).1

theorem tableFreeGo_count : ∀ (t : RTree) (c : Nat), (tableFreeGo t c).1 = c - size t := by
  intro t
  induction t with
  | nil => intro c; simp [tableFreeGo, size]
  | node d l r ihl ihr =>
    intro c
    rw [tableFreeGo]
    simp only [size, ihl, ihr]
    omega

theorem tableFreeGo_clean : ∀ (t : RTree) (c : Nat),
    (tableFreeGo t c).2 = (nodesOf t).all freeClean := by
  intro t
  induction t with
  | nil => intro c; simp [tableFreeGo, nodesOf]
  | node d l r ihl ihr =>
    intro c
    rw [tableFreeGo]
    simp only [nodesOf, List.all_cons, List.all_append, ihl, ihr]
    cases freeClean d <;> cases (nodesOf l).all freeClean <;> cases (nodesOf r).all freeClean <;>
      rfl

theorem tableFreeGo_locks : ∀ (t : RTree) (c : Nat) (f : Nat → Nat),
    tableFreeGo (mapLocks f t) c = tableFreeGo t c := by
  intro t
  induction t with
  | nil => intro c f; rfl
  | node d l r ihl ihr =>
    intro c f
    rw [mapLocks, tableFreeGo, tableFreeGo]
    simp only [ihl, ihr]
    rfl

/-! ## Claim C8 -/

/-- C8: at table-lock zero, `bgp_table_free` traverses the whole tree
freeing every node without consulting any lock counter (rewriting every
lock arbitrarily changes nothing), asserting per node that `info`,
`adj_ins`, `adj_outs` are null and `on_wq` is false; after the traversal
the count is `count - size(top)`, hence zero whenever the count invariant
held on entry (the `assert (rt->count == 0)` holds), and the owner is
unlocked exactly when one is set. -/
theorem C8_table_free (tbl : Table) (owner : Bool) :
    ((bgp_table_free tbl owner).countAfter = tbl.count - size tbl.top) ∧
    (tbl.count = size tbl.top → (bgp_table_free tbl owner).countAfter = 0) ∧
    ((bgp_table_free tbl owner).nodesClean = (nodesOf tbl.top).all freeClean) ∧
    ((∀ x, x ∈ nodesOf tbl.top → freeClean x = true) →
      (bgp_table_free tbl owner).nodesClean = true) ∧
    ((bgp_table_free tbl owner).ownerUnlocked = owner) ∧
    (∀ f : Nat → Nat,
      bgp_table_free { tbl with top := mapLocks f tbl.top } owner = bgp_table_free tbl owner) := by
  refine ⟨?_, ?_, ?_, ?_, ?_, ?_⟩
  · simp [bgp_table_free, tableFreeGo_count]
  · intro h
    simp [bgp_table_free, tableFreeGo_count, h]
  · simp [bgp_table_free, tableFreeGo_clean]
  · intro h
    simp [bgp_table_free, tableFreeGo_clean]
    exact h
  · simp [bgp_table_free]
  · intro f
    simp [bgp_table_free, tableFreeGo_locks]

/-- C8 witness: freeing a two-node table with clean nodes ends at count 0
with every assertion passing, and unlocks the owner that is set. -/
theorem C8_table_free_witness :
    (bgp_table_free
        { top := .node (newLeaf ⟨8, [10, 0, 0, 0]⟩ none)
            (.node (newLeaf ⟨9, [10, 128, 0, 0]⟩ none) .nil .nil) .nil,
          count := 2 } true).countAfter = 0 ∧
    (bgp_table_free
        { top := .node (newLeaf ⟨8, [10, 0, 0, 0]⟩ none)
            (.node (newLeaf ⟨9, [10, 128, 0, 0]⟩ none) .nil .nil) .nil,
          count := 2 } true).nodesClean = true := by
  have h := C8_table_free
    { top := .node (newLeaf ⟨8, [10, 0, 0, 0]⟩ none)
        (.node (newLeaf ⟨9, [10, 128, 0, 0]⟩ none) .nil .nil) .nil,
      count := 2 } true
  exact ⟨h.2.1 (by decide), h.2.2.2.1 (by decide)⟩

/-! ## Well-formedness lemmas (the structural checks of bgp_table_check) -/

theorem prefix_match_iff {n p : Pfx} :
    prefix_match n p = true ↔ n.prefixlen ≤ p.prefixlen ∧
      ∀ i, i < n.prefixlen → prefix_bit n.bytes i = prefix_bit p.bytes i := by
  simp [prefix_match, List.all_eq_true, List.mem_range]

theorem prefix_match_bit {n p : Pfx} (h : prefix_match n p = true) {i : Nat}
    (hi : i < n.prefixlen) : prefix_bit n.bytes i = prefix_bit p.bytes i :=
  (prefix_match_iff.mp h).2 i hi

theorem prefix_match_trans {a b c : Pfx} (h1 : prefix_match a b = true)
    (h2 : prefix_match b c = true) : prefix_match a c = true := by
  obtain ⟨hl1, hb1⟩ := prefix_match_iff.mp h1
  obtain ⟨hl2, hb2⟩ := prefix_match_iff.mp h2
  refine prefix_match_iff.mpr ⟨by omega, ?_⟩
  intro i hi
  rw [hb1 i hi, hb2 i (by omega)]

theorem prefix_check_beyond {q : Pfx} (h : prefix_check q = true) :
    ∀ m, q.prefixlen ≤ m → prefix_bit q.bytes m = false := by
  intro m hm
  by_cases hb : m < 8 * q.bytes.length
  · have h' := (List.all_eq_true.mp h) m (List.mem_range.mpr hb)
    simp at h'
    rcases h' with h' | h'
    · omega
    · exact h'
  · rw [prefix_bit_eq_testBit]
    have hz : byteAt q.bytes (m / 8) = 0 := by
      unfold byteAt
      rw [List.getD_eq_getElem?_getD, List.getElem?_eq_none (by omega)]
      rfl
    simp [hz]

theorem nodeAt_mem_nodesOf : ∀ (t : RTree) (bs : List Bool) (x : NodeData),
    nodeAt t bs = some x → x ∈ nodesOf t := by
  intro t
  induction t with
  | nil => intro bs x h; cases bs <;> simp [nodeAt, subAt, dataOf] at h
  | node d l r ihl ihr =>
    intro bs x h
    cases bs with
    | nil =>
      simp [nodeAt, subAt, dataOf] at h
      simp [nodesOf, h]
    | cons b bs =>
      simp only [nodeAt, subAt] at h
      cases b with
      | false =>
        simp only [if_neg (by simp : ¬ (false = true))] at h
        simp [nodesOf]
        right; left
        exact ihl bs x h
      | true =>
        simp only [if_pos rfl] at h
        simp [nodesOf]
        right; right
        exact ihr bs x h

theorem wfT_node {d : NodeData} {l r : RTree} (h : wfT (.node d l r) = true) :
    prefix_check d.p = true ∧ goodChild d false l = true ∧ goodChild d true r = true ∧
      wfT l = true ∧ wfT r = true := by
  rw [wfT] at h
  simp only [Bool.and_eq_true] at h
  exact ⟨h.1.1.1.1, h.1.1.1.2, h.1.1.2, h.1.2, h.2⟩

theorem goodChild_node {d cd : NodeData} {cl cr : RTree} {b : Bool}
    (h : goodChild d b (.node cd cl cr) = true) :
    d.p.prefixlen < cd.p.prefixlen ∧ prefix_match d.p cd.p = true ∧
      prefix_bit cd.p.bytes d.p.prefixlen = b := by
  rw [goodChild] at h
  simp only [Bool.and_eq_true, beq_iff_eq, decide_eq_true_eq] at h
  exact ⟨h.1.1, h.1.2, h.2⟩

/-- In a well-formed subtree, the root covers every member. -/
theorem wfT_mem_root : ∀ (t : RTree), wfT t = true → ∀ (d : NodeData), dataOf t = some d →
    ∀ x, x ∈ nodesOf t → prefix_match d.p x.p = true ∧ d.p.prefixlen ≤ x.p.prefixlen := by
  intro t
  induction t with
  | nil => intro _ d hd; simp [dataOf] at hd
  | node d0 l r ihl ihr =>
    intro hwf d hd x hx
    simp [dataOf] at hd
    subst hd
    obtain ⟨hchk, hgl, hgr, hwl, hwr⟩ := wfT_node hwf
    simp only [nodesOf, List.mem_cons, List.mem_append] at hx
    rcases hx with rfl | hx | hx
    · exact ⟨prefix_match_self _, le_refl _⟩
    · cases l with
      | nil => simp [nodesOf] at hx
      | node ld ll lr =>
        obtain ⟨hlt, hm, _⟩ := goodChild_node hgl
        obtain ⟨hm2, hle2⟩ := ihl hwl ld rfl x (by simpa [nodesOf] using hx)
        exact ⟨prefix_match_trans hm hm2, by omega⟩
    · cases r with
      | nil => simp [nodesOf] at hx
      | node rd rl rr =>
        obtain ⟨hlt, hm, _⟩ := goodChild_node hgr
        obtain ⟨hm2, hle2⟩ := ihr hwr rd rfl x (by simpa [nodesOf] using hx)
        exact ⟨prefix_match_trans hm hm2, by omega⟩

/-- In a well-formed node, a member of a child subtree is strictly covered
by the node, and its bit at the node's prefix length names the side. -/
theorem wfT_child_bits {d : NodeData} {l r : RTree} (h : wfT (.node d l r) = true) (x : NodeData) :
    (x ∈ nodesOf l → prefix_match d.p x.p = true ∧ d.p.prefixlen < x.p.prefixlen ∧
      prefix_bit x.p.bytes d.p.prefixlen = false) ∧
    (x ∈ nodesOf r → prefix_match d.p x.p = true ∧ d.p.prefixlen < x.p.prefixlen ∧
      prefix_bit x.p.bytes d.p.prefixlen = true) := by
  obtain ⟨hchk, hgl, hgr, hwl, hwr⟩ := wfT_node h
  constructor
  · intro hx
    cases l with
    | nil => simp [nodesOf] at hx
    | node ld ll lr =>
      obtain ⟨hlt, hm, hbit⟩ := goodChild_node hgl
      obtain ⟨hm2, hle2⟩ := wfT_mem_root _ hwl ld rfl x hx
      refine ⟨prefix_match_trans hm hm2, by omega, ?_⟩
      rw [← prefix_match_bit hm2 (by omega : d.p.prefixlen < ld.p.prefixlen)]
      exact hbit
  · intro hx
    cases r with
    | nil => simp [nodesOf] at hx
    | node rd rl rr =>
      obtain ⟨hlt, hm, hbit⟩ := goodChild_node hgr
      obtain ⟨hm2, hle2⟩ := wfT_mem_root _ hwr rd rfl x hx
      refine ⟨prefix_match_trans hm hm2, by omega, ?_⟩
      rw [← prefix_match_bit hm2 (by omega : d.p.prefixlen < rd.p.prefixlen)]
      exact hbit

/-- Every member of a well-formed tree has a canonical prefix. -/
theorem wfT_mem_check : ∀ (t : RTree), wfT t = true →
    ∀ x, x ∈ nodesOf t → prefix_check x.p = true := by
  intro t
  induction t with
  | nil => intro _ x hx; simp [nodesOf] at hx
  | node d l r ihl ihr =>
    intro hwf x hx
    obtain ⟨hchk, _, _, hwl, hwr⟩ := wfT_node hwf
    simp only [nodesOf, List.mem_cons, List.mem_append] at hx
    rcases hx with rfl | hx | hx
    · exact hchk
    · exact ihl hwl x hx
    · exact ihr hwr x hx

/-- Soundness of the `bgp_node_match` loop: the result is the incoming
best match, or a node inside the tree carrying `info` and covering `p`. -/
theorem matchGo_sound : ∀ (t : RTree) (p : Pfx) (pre : List Bool) (best : Option (List Bool)),
    matchGo t p pre best = best ∨
    ∃ suf x, matchGo t p pre best = some (pre ++ suf) ∧ nodeAt t suf = some x ∧
      x.info = true ∧ prefix_match x.p p = true := by
  intro t
  induction t with
  | nil => intro p pre best; left; rfl
  | node d l r ihl ihr =>
    intro p pre best
    rw [matchGo]
    by_cases hc : d.p.prefixlen ≤ p.prefixlen ∧ prefix_match d.p p = true
    · rw [if_pos hc]
      simp only
      by_cases hb : prefix_bit p.bytes d.p.prefixlen
      · rw [if_pos hb]
        rcases ihr p (pre ++ [true]) (if d.info then some pre else best) with h | ⟨suf, x, h1, h2, h3, h4⟩
        · rw [h]
          by_cases hi : d.info
          · right
            refine ⟨[], d, ?_, rfl, hi, hc.2⟩
            simp [hi]
          · left; simp [hi]
        · right
          refine ⟨true :: suf, x, ?_, ?_, h3, h4⟩
          · rw [h1]; simp
          · simpa [nodeAt, subAt] using h2
      · rw [if_neg hb]
        rcases ihl p (pre ++ [false]) (if d.info then some pre else best) with h | ⟨suf, x, h1, h2, h3, h4⟩
        · rw [h]
          by_cases hi : d.info
          · right
            refine ⟨[], d, ?_, rfl, hi, hc.2⟩
            simp [hi]
          · left; simp [hi]
        · right
          refine ⟨false :: suf, x, ?_, ?_, h3, h4⟩
          · rw [h1]; simp
          · simpa [nodeAt, subAt] using h2
    · rw [if_neg hc]
      left
      rfl

/-- Completeness and maximality of the `bgp_node_match` loop on a
well-formed tree: every `info`-carrying covering node forces a result at
least as long. -/
theorem matchGo_complete : ∀ (t : RTree), wfT t = true →
    ∀ (p : Pfx) (pre : List Bool) (best : Option (List Bool)) (x : NodeData),
    x ∈ nodesOf t → x.info = true → prefix_match x.p p = true →
    ∃ suf y, matchGo t p pre best = some (pre ++ suf) ∧ nodeAt t suf = some y ∧
      y.info = true ∧ prefix_match y.p p = true ∧ x.p.prefixlen ≤ y.p.prefixlen := by
  intro t
  induction t with
  | nil => intro _ p pre best x hx; simp [nodesOf] at hx
  | node d l r ihl ihr =>
    intro hwf p pre best x hx hxi hxm
    obtain ⟨hchk, hgl, hgr, hwl, hwr⟩ := wfT_node hwf
    have hcb := wfT_child_bits hwf x
    simp only [nodesOf, List.mem_cons, List.mem_append] at hx
    have hcond : d.p.prefixlen ≤ p.prefixlen ∧ prefix_match d.p p = true := by
      rcases hx with rfl | hx | hx
      · exact ⟨prefix_match_le hxm, hxm⟩
      · have hm := prefix_match_trans (hcb.1 hx).1 hxm
        exact ⟨prefix_match_le hm, hm⟩
      · have hm := prefix_match_trans (hcb.2 hx).1 hxm
        exact ⟨prefix_match_le hm, hm⟩
    rw [matchGo, if_pos hcond]
    simp only
    rcases hx with rfl | hx | hx
    · rw [if_pos hxi]
      by_cases hb : prefix_bit p.bytes x.p.prefixlen
      · rw [if_pos hb]
        rcases matchGo_sound r p (pre ++ [true]) (some pre) with h | ⟨suf, y, h1, h2, h3, h4⟩
        · refine ⟨[], x, ?_, rfl, hxi, hxm, le_refl _⟩
          rw [h]
          simp
        · refine ⟨true :: suf, y, ?_, ?_, h3, h4, ?_⟩
          · rw [h1]; simp
          · simpa [nodeAt, subAt] using h2
          · have hy := (wfT_child_bits hwf y).2 (nodeAt_mem_nodesOf r suf y h2)
            omega
      · rw [if_neg hb]
        rcases matchGo_sound l p (pre ++ [false]) (some pre) with h | ⟨suf, y, h1, h2, h3, h4⟩
        · refine ⟨[], x, ?_, rfl, hxi, hxm, le_refl _⟩
          rw [h]
          simp
        · refine ⟨false :: suf, y, ?_, ?_, h3, h4, ?_⟩
          · rw [h1]; simp
          · simpa [nodeAt, subAt] using h2
          · have hy := (wfT_child_bits hwf y).1 (nodeAt_mem_nodesOf l suf y h2)
            omega
    · obtain ⟨hm, hlt, hbit⟩ := hcb.1 hx
      have hpb : prefix_bit p.bytes d.p.prefixlen = false := by
        rw [← prefix_match_bit hxm (by omega : d.p.prefixlen < x.p.prefixlen)]
        exact hbit
      rw [if_neg (by simp [hpb])]
      obtain ⟨suf, y, h1, h2, h3, h4, h5⟩ :=
        ihl hwl p (pre ++ [false]) (if d.info then some pre else best) x hx hxi hxm
      refine ⟨false :: suf, y, ?_, ?_, h3, h4, h5⟩
      · rw [h1]; simp
      · simpa [nodeAt, subAt] using h2
    · obtain ⟨hm, hlt, hbit⟩ := hcb.2 hx
      have hpb : prefix_bit p.bytes d.p.prefixlen = true := by
        rw [← prefix_match_bit hxm (by omega : d.p.prefixlen < x.p.prefixlen)]
        exact hbit
      rw [if_pos hpb]
      obtain ⟨suf, y, h1, h2, h3, h4, h5⟩ :=
        ihr hwr p (pre ++ [true]) (if d.info then some pre else best) x hx hxi hxm
      refine ⟨true :: suf, y, ?_, ?_, h3, h4, h5⟩
      · rw [h1]; simp
      · simpa [nodeAt, subAt] using h2

theorem modifyAt_nodeAt_self : ∀ (t : RTree) (bs : List Bool) (f : NodeData → NodeData)
    (x : NodeData), nodeAt t bs = some x → nodeAt (modifyAt t bs f) bs = some (f x) := by
  intro t
  induction t with
  | nil => intro bs f x h; cases bs <;> simp [nodeAt, subAt, dataOf] at h
  | node d l r ihl ihr =>
    intro bs f x h
    cases bs with
    | nil =>
      simp [nodeAt, subAt, dataOf] at h
      simp [modifyAt, nodeAt, subAt, dataOf, h]
    | cons b bs =>
      cases b with
      | false =>
        simp only [nodeAt, subAt, if_neg (by simp : ¬ (false = true))] at h
        simpa [modifyAt, nodeAt, subAt] using ihl bs f x h
      | true =>
        simp only [nodeAt, subAt, if_pos rfl] at h
        simpa [modifyAt, nodeAt, subAt] using ihr bs f x h

theorem modifyAt_nodeAt_other : ∀ (t : RTree) (bs bs' : List Bool) (f : NodeData → NodeData),
    bs ≠ bs' → nodeAt (modifyAt t bs f) bs' = nodeAt t bs' := by
  intro t
  induction t with
  | nil => intro bs bs' f h; cases bs <;> rfl
  | node d l r ihl ihr =>
    intro bs bs' f hne
    cases bs with
    | nil =>
      cases bs' with
      | nil => exact absurd rfl hne
      | cons b' bs' => cases b' <;> simp [modifyAt, nodeAt, subAt]
    | cons b bs =>
      cases bs' with
      | nil => cases b <;> simp [modifyAt, nodeAt, subAt, dataOf]
      | cons b' bs' =>
        cases b with
        | false =>
          cases b' with
          | false =>
            have h := ihl bs bs' f (fun hb => hne (by rw [hb]))
            simp only [modifyAt, if_neg (by simp : ¬ (false = true))]
            simpa [nodeAt, subAt] using h
          | true => simp [modifyAt, nodeAt, subAt]
        | true =>
          cases b' with
          | false => simp [modifyAt, nodeAt, subAt]
          | true =>
            have h := ihr bs bs' f (fun hb => hne (by rw [hb]))
            simp only [modifyAt, if_pos rfl]
            simpa [nodeAt, subAt] using h

/-! ## Claim C1 -/

/-- C1: on a table passing the structural checks, `bgp_node_match` returns
— with one additional lock on it and nothing else changed — the reachable
node of greatest prefix length whose prefix covers `p` and whose `info` is
non-null, and returns none exactly when no reachable node covering `p` has
non-null `info`. -/
theorem C1_node_match (tbl : Table) (p : Pfx) (hwf : wfT tbl.top = true) :
    (∀ bs, (bgp_node_match tbl p).2 = some bs →
      ∃ x, nodeAt tbl.top bs = some x ∧ x.info = true ∧ prefix_match x.p p = true ∧
        (∀ y, y ∈ nodesOf tbl.top → y.info = true → prefix_match y.p p = true →
          y.p.prefixlen ≤ x.p.prefixlen) ∧
        (bgp_node_match tbl p).1.top = bumpAt tbl.top bs ∧
        nodeAt (bgp_node_match tbl p).1.top bs = some { x with lock := x.lock + 1 } ∧
        (bgp_node_match tbl p).1.count = tbl.count) ∧
    ((bgp_node_match tbl p).2 = none ↔
      ∀ y, y ∈ nodesOf tbl.top → y.info = true → prefix_match y.p p = false) ∧
    ((bgp_node_match tbl p).2 = none → (bgp_node_match tbl p).1 = tbl) := by
  refine ⟨?_, ⟨?_, ?_⟩, ?_⟩
  · intro bs hsome
    cases hmg : matchGo tbl.top p [] none with
    | none => simp [bgp_node_match, hmg] at hsome
    | some bs0 =>
      have hbs : bs0 = bs := by
        simp [bgp_node_match, hmg] at hsome
        exact hsome
      subst hbs
      rcases matchGo_sound tbl.top p [] none with h | ⟨suf, x, h1, h2, h3, h4⟩
      · rw [hmg] at h; cases h
      · rw [hmg] at h1
        simp at h1
        subst h1
        refine ⟨x, h2, h3, h4, ?_, ?_, ?_, ?_⟩
        · intro y hy hyi hym
          obtain ⟨suf2, y2, g1, g2, _, _, g5⟩ :=
            matchGo_complete tbl.top hwf p [] none y hy hyi hym
          rw [hmg] at g1
          simp at g1
          subst g1
          rw [h2] at g2
          cases g2
          exact g5
        · simp [bgp_node_match, hmg]
        · simp only [bgp_node_match, hmg]
          exact modifyAt_nodeAt_self _ _ _ x h2
        · simp [bgp_node_match, hmg]
  · intro hnone y hy hyi
    cases hym : prefix_match y.p p with
    | false => rfl
    | true =>
      obtain ⟨suf2, y2, g1, _, _, _, _⟩ :=
        matchGo_complete tbl.top hwf p [] none y hy hyi hym
      simp [bgp_node_match, g1] at hnone
  · intro hall
    cases hmg : matchGo tbl.top p [] none with
    | none => simp [bgp_node_match, hmg]
    | some bs0 =>
      rcases matchGo_sound tbl.top p [] none with h | ⟨suf, x, h1, h2, h3, h4⟩
      · rw [hmg] at h; cases h
      · have hx := nodeAt_mem_nodesOf tbl.top suf x h2
        have := hall x hx h3
        rw [h4] at this
        cases this
  · intro hnone
    cases hmg : matchGo tbl.top p [] none with
    | none => simp [bgp_node_match, hmg]
    | some bs0 => simp [bgp_node_match, hmg] at hnone

/-- C1 witness: on a one-route table holding 10.0.0.0/8 with `info` set,
matching the host address 10.1.2.3 finds that node (at the root) and bumps
only its lock. -/
theorem C1_node_match_witness :
    ∃ x, nodeAt (RTree.node { newLeaf ⟨8, [10, 0, 0, 0]⟩ none with info := true } .nil .nil)
        [] = some x ∧ x.info = true ∧ prefix_match x.p ⟨32, [10, 1, 2, 3]⟩ = true ∧
      (∀ y, y ∈ nodesOf (RTree.node { newLeaf ⟨8, [10, 0, 0, 0]⟩ none with info := true }
          .nil .nil) → y.info = true → prefix_match y.p ⟨32, [10, 1, 2, 3]⟩ = true →
        y.p.prefixlen ≤ x.p.prefixlen) ∧
      (bgp_node_match
          { top := .node { newLeaf ⟨8, [10, 0, 0, 0]⟩ none with info := true } .nil .nil,
            count := 1 } ⟨32, [10, 1, 2, 3]⟩).1.top =
        bumpAt (.node { newLeaf ⟨8, [10, 0, 0, 0]⟩ none with info := true } .nil .nil) [] ∧
      nodeAt (bgp_node_match
          { top := .node { newLeaf ⟨8, [10, 0, 0, 0]⟩ none with info := true } .nil .nil,
            count := 1 } ⟨32, [10, 1, 2, 3]⟩).1.top [] =
        some { x with lock := x.lock + 1 } ∧
      (bgp_node_match
          { top := .node { newLeaf ⟨8, [10, 0, 0, 0]⟩ none with info := true } .nil .nil,
            count := 1 } ⟨32, [10, 1, 2, 3]⟩).1.count = 1 :=
  (C1_node_match
      { top := .node { newLeaf ⟨8, [10, 0, 0, 0]⟩ none with info := true } .nil .nil,
        count := 1 } ⟨32, [10, 1, 2, 3]⟩ (by decide)).1 [] (by decide)

/-- Soundness of the `bgp_node_lookup` loop. -/
theorem lookupGo_sound : ∀ (t : RTree) (p : Pfx) (pre bs : List Bool),
    lookupGo t p pre = some bs →
    ∃ suf x, bs = pre ++ suf ∧ nodeAt t suf = some x ∧ x.info = true ∧
      x.p.prefixlen = p.prefixlen ∧ prefix_match x.p p = true := by
  intro t
  induction t with
  | nil => intro p pre bs h; simp [lookupGo] at h
  | node d l r ihl ihr =>
    intro p pre bs h
    rw [lookupGo] at h
    by_cases hc : d.p.prefixlen ≤ p.prefixlen ∧ prefix_match d.p p = true
    · rw [if_pos hc] at h
      by_cases he : d.p.prefixlen = p.prefixlen ∧ d.info = true
      · rw [if_pos he] at h
        cases h
        exact ⟨[], d, by simp, rfl, he.2, he.1, hc.2⟩
      · rw [if_neg he] at h
        by_cases hb : prefix_bit p.bytes d.p.prefixlen
        · rw [if_pos hb] at h
          obtain ⟨suf, x, h1, h2, h3, h4, h5⟩ := ihr p (pre ++ [true]) bs h
          exact ⟨true :: suf, x, by simp [h1], by simpa [nodeAt, subAt] using h2, h3, h4, h5⟩
        · rw [if_neg hb] at h
          obtain ⟨suf, x, h1, h2, h3, h4, h5⟩ := ihl p (pre ++ [false]) bs h
          exact ⟨false :: suf, x, by simp [h1], by simpa [nodeAt, subAt] using h2, h3, h4, h5⟩
    · rw [if_neg hc] at h
      cases h

/-- Completeness of the `bgp_node_lookup` loop on a well-formed tree. -/
theorem lookupGo_complete : ∀ (t : RTree), wfT t = true →
    ∀ (p : Pfx) (pre : List Bool) (x : NodeData),
    x ∈ nodesOf t → x.info = true → x.p.prefixlen = p.prefixlen →
    prefix_match x.p p = true → ∃ bs, lookupGo t p pre = some bs := by
  intro t
  induction t with
  | nil => intro _ p pre x hx; simp [nodesOf] at hx
  | node d l r ihl ihr =>
    intro hwf p pre x hx hxi hxe hxm
    obtain ⟨hchk, hgl, hgr, hwl, hwr⟩ := wfT_node hwf
    have hcb := wfT_child_bits hwf x
    simp only [nodesOf, List.mem_cons, List.mem_append] at hx
    have hcond : d.p.prefixlen ≤ p.prefixlen ∧ prefix_match d.p p = true := by
      rcases hx with rfl | hx | hx
      · exact ⟨prefix_match_le hxm, hxm⟩
      · have hm := prefix_match_trans (hcb.1 hx).1 hxm
        exact ⟨prefix_match_le hm, hm⟩
      · have hm := prefix_match_trans (hcb.2 hx).1 hxm
        exact ⟨prefix_match_le hm, hm⟩
    rw [lookupGo, if_pos hcond]
    rcases hx with rfl | hx | hx
    · rw [if_pos ⟨hxe, hxi⟩]
      exact ⟨pre, rfl⟩
    · obtain ⟨hm, hlt, hbit⟩ := hcb.1 hx
      have hne : ¬ (d.p.prefixlen = p.prefixlen ∧ d.info = true) := by
        intro hcontra
        omega
      rw [if_neg hne]
      have hpb : prefix_bit p.bytes d.p.prefixlen = false := by
        rw [← prefix_match_bit hxm (by omega : d.p.prefixlen < x.p.prefixlen)]
        exact hbit
      rw [if_neg (by simp [hpb])]
      exact ihl hwl p (pre ++ [false]) x hx hxi hxe hxm
    · obtain ⟨hm, hlt, hbit⟩ := hcb.2 hx
      have hne : ¬ (d.p.prefixlen = p.prefixlen ∧ d.info = true) := by
        intro hcontra
        omega
      rw [if_neg hne]
      have hpb : prefix_bit p.bytes d.p.prefixlen = true := by
        rw [← prefix_match_bit hxm (by omega : d.p.prefixlen < x.p.prefixlen)]
        exact hbit
      rw [if_pos hpb]
      exact ihr hwr p (pre ++ [true]) x hx hxi hxe hxm

/-! ## Claim C5 -/

/-- C5: on a table passing the structural checks and a canonical query
prefix, `bgp_node_lookup` returns a node — with one lock added and nothing
else changed — if and only if some reachable node has prefix length equal
to `p`'s and non-null `info`; otherwise it returns none, and on success
the returned node's prefix equals `p` bit for bit. -/
theorem C5_node_lookup (tbl : Table) (p : Pfx) (hwf : wfT tbl.top = true)
    (hp : prefix_check p = true) :
    (∀ bs, (bgp_node_lookup tbl p).2 = some bs →
      ∃ x, nodeAt tbl.top bs = some x ∧ x.info = true ∧
        x.p.prefixlen = p.prefixlen ∧ prefix_match x.p p = true ∧
        (∀ m, prefix_bit x.p.bytes m = prefix_bit p.bytes m) ∧
        (bgp_node_lookup tbl p).1.top = bumpAt tbl.top bs ∧
        nodeAt (bgp_node_lookup tbl p).1.top bs = some { x with lock := x.lock + 1 } ∧
        (bgp_node_lookup tbl p).1.count = tbl.count) ∧
    ((bgp_node_lookup tbl p).2 = none ↔
      ∀ y, y ∈ nodesOf tbl.top → y.info = true → y.p.prefixlen = p.prefixlen →
        prefix_match y.p p = false) ∧
    ((bgp_node_lookup tbl p).2 = none → (bgp_node_lookup tbl p).1 = tbl) := by
  refine ⟨?_, ⟨?_, ?_⟩, ?_⟩
  · intro bs hsome
    cases hlg : lookupGo tbl.top p [] with
    | none => simp [bgp_node_lookup, hlg] at hsome
    | some bs0 =>
      have hbs : bs0 = bs := by
        simp [bgp_node_lookup, hlg] at hsome
        exact hsome
      subst hbs
      obtain ⟨suf, x, h1, h2, h3, h4, h5⟩ := lookupGo_sound tbl.top p [] bs0 hlg
      simp at h1
      subst h1
      refine ⟨x, h2, h3, h4, h5, ?_, ?_, ?_, ?_⟩
      · intro m
        by_cases hm : m < p.prefixlen
        · exact prefix_match_bit h5 (by omega)
        · have hxc := wfT_mem_check tbl.top hwf x (nodeAt_mem_nodesOf tbl.top _ x h2)
          rw [prefix_check_beyond hxc m (by omega), prefix_check_beyond hp m (by omega)]
      · simp [bgp_node_lookup, hlg]
      · simp only [bgp_node_lookup, hlg]
        exact modifyAt_nodeAt_self _ _ _ x h2
      · simp [bgp_node_lookup, hlg]
  · intro hnone y hy hyi hye
    cases hym : prefix_match y.p p with
    | false => rfl
    | true =>
      obtain ⟨bs, hbs⟩ := lookupGo_complete tbl.top hwf p [] y hy hyi hye hym
      simp [bgp_node_lookup, hbs] at hnone
  · intro hall
    cases hlg : lookupGo tbl.top p [] with
    | none => simp [bgp_node_lookup, hlg]
    | some bs0 =>
      obtain ⟨suf, x, h1, h2, h3, h4, h5⟩ := lookupGo_sound tbl.top p [] bs0 hlg
      have hx := nodeAt_mem_nodesOf tbl.top suf x h2
      have := hall x hx h3 h4
      rw [h5] at this
      cases this
  · intro hnone
    cases hlg : lookupGo tbl.top p [] with
    | none => simp [bgp_node_lookup, hlg]
    | some bs0 => simp [bgp_node_lookup, hlg] at hnone

/-- C5 witness: exact lookup of 10.0.0.0/8 in a one-route table whose node
has `info` set succeeds at the root with one lock added. -/
theorem C5_node_lookup_witness :
    ∃ x, nodeAt (RTree.node { newLeaf ⟨8, [10, 0, 0, 0]⟩ none with info := true } .nil .nil)
        [] = some x ∧ x.info = true ∧ x.p.prefixlen = 8 ∧
      prefix_match x.p ⟨8, [10, 0, 0, 0]⟩ = true ∧
      (∀ m, prefix_bit x.p.bytes m = prefix_bit [10, 0, 0, 0] m) ∧
      (bgp_node_lookup
          { top := .node { newLeaf ⟨8, [10, 0, 0, 0]⟩ none with info := true } .nil .nil,
            count := 1 } ⟨8, [10, 0, 0, 0]⟩).1.top =
        bumpAt (.node { newLeaf ⟨8, [10, 0, 0, 0]⟩ none with info := true } .nil .nil) [] ∧
      nodeAt (bgp_node_lookup
          { top := .node { newLeaf ⟨8, [10, 0, 0, 0]⟩ none with info := true } .nil .nil,
            count := 1 } ⟨8, [10, 0, 0, 0]⟩).1.top [] = some { x with lock := x.lock + 1 } ∧
      (bgp_node_lookup
          { top := .node { newLeaf ⟨8, [10, 0, 0, 0]⟩ none with info := true } .nil .nil,
            count := 1 } ⟨8, [10, 0, 0, 0]⟩).1.count = 1 :=
  (C5_node_lookup
      { top := .node { newLeaf ⟨8, [10, 0, 0, 0]⟩ none with info := true } .nil .nil,
        count := 1 } ⟨8, [10, 0, 0, 0]⟩ (by decide) (by decide)).1 [] (by decide)

theorem stripLocks_bumpAt : ∀ (t : RTree) (bs : List Bool),
    stripLocks (bumpAt t bs) = stripLocks t := by
  intro t
  induction t with
  | nil => intro bs; cases bs <;> rfl
  | node d l r ihl ihr =>
    intro bs
    cases bs with
    | nil => rfl
    | cons b bs =>
      cases b with
      | false =>
        simp only [bumpAt, modifyAt, if_neg (by simp : ¬ (false = true)), stripLocks]
        rw [show modifyAt l bs (fun d => { d with lock := d.lock + 1 }) = bumpAt l bs from rfl,
          ihl]
      | true =>
        simp only [bumpAt, modifyAt, if_pos rfl, stripLocks]
        rw [show modifyAt r bs (fun d => { d with lock := d.lock + 1 }) = bumpAt r bs from rfl,
          ihr]

/-! ## Claim C9 -/

/-- C9: `bgp_node_lookup`, `bgp_node_match` (and its IPv4/IPv6 variants,
which are `bgp_node_match` on the host-length prefix of the address) and
`bgp_table_count` never modify the table: the count is unchanged,
everything except lock counters is unchanged (`stripLocks` equality covers
`top`, every node's prefix, children, info and prn), every node off the
returned path keeps its record verbatim, and the only lock counter that
changes is the returned node's, incremented by exactly one on success; on
failure the table is untouched. -/
theorem C9_read_only (tbl : Table) (p : Pfx) :
    ((bgp_node_lookup tbl p).2 = none → (bgp_node_lookup tbl p).1 = tbl) ∧
    (∀ bs, (bgp_node_lookup tbl p).2 = some bs →
      (bgp_node_lookup tbl p).1.count = tbl.count ∧
      stripLocks (bgp_node_lookup tbl p).1.top = stripLocks tbl.top ∧
      (∀ bs', bs' ≠ bs → nodeAt (bgp_node_lookup tbl p).1.top bs' = nodeAt tbl.top bs') ∧
      (∀ x, nodeAt tbl.top bs = some x →
        nodeAt (bgp_node_lookup tbl p).1.top bs = some { x with lock := x.lock + 1 })) ∧
    ((bgp_node_match tbl p).2 = none → (bgp_node_match tbl p).1 = tbl) ∧
    (∀ bs, (bgp_node_match tbl p).2 = some bs →
      (bgp_node_match tbl p).1.count = tbl.count ∧
      stripLocks (bgp_node_match tbl p).1.top = stripLocks tbl.top ∧
      (∀ bs', bs' ≠ bs → nodeAt (bgp_node_match tbl p).1.top bs' = nodeAt tbl.top bs') ∧
      (∀ x, nodeAt tbl.top bs = some x →
        nodeAt (bgp_node_match tbl p).1.top bs = some { x with lock := x.lock + 1 })) ∧
    (∀ addr, bgp_node_match_ipv4 tbl addr = bgp_node_match tbl ⟨32, addr⟩) ∧
    (∀ addr, bgp_node_match_ipv6 tbl addr = bgp_node_match tbl ⟨128, addr⟩) ∧
    (bgp_table_count tbl = tbl.count) := by
  refine ⟨?_, ?_, ?_, ?_, fun _ => rfl, fun _ => rfl, rfl⟩
  · intro hnone
    cases hlg : lookupGo tbl.top p [] with
    | none => simp [bgp_node_lookup, hlg]
    | some bs0 => simp [bgp_node_lookup, hlg] at hnone
  · intro bs hsome
    cases hlg : lookupGo tbl.top p [] with
    | none => simp [bgp_node_lookup, hlg] at hsome
    | some bs0 =>
      have : bs0 = bs := by simpa [bgp_node_lookup, hlg] using hsome
      subst this
      refine ⟨by simp [bgp_node_lookup, hlg], ?_, ?_, ?_⟩
      · simp only [bgp_node_lookup, hlg]
        exact stripLocks_bumpAt tbl.top bs0
      · intro bs' hne
        simp only [bgp_node_lookup, hlg]
        exact modifyAt_nodeAt_other tbl.top bs0 bs' _ (fun h => hne h.symm)
      · intro x hx
        simp only [bgp_node_lookup, hlg]
        exact modifyAt_nodeAt_self _ _ _ x hx
  · intro hnone
    cases hmg : matchGo tbl.top p [] none with
    | none => simp [bgp_node_match, hmg]
    | some bs0 => simp [bgp_node_match, hmg] at hnone
  · intro bs hsome
    cases hmg : matchGo tbl.top p [] none with
    | none => simp [bgp_node_match, hmg] at hsome
    | some bs0 =>
      have : bs0 = bs := by simpa [bgp_node_match, hmg] using hsome
      subst this
      refine ⟨by simp [bgp_node_match, hmg], ?_, ?_, ?_⟩
      · simp only [bgp_node_match, hmg]
        exact stripLocks_bumpAt tbl.top bs0
      · intro bs' hne
        simp only [bgp_node_match, hmg]
        exact modifyAt_nodeAt_other tbl.top bs0 bs' _ (fun h => hne h.symm)
      · intro x hx
        simp only [bgp_node_match, hmg]
        exact modifyAt_nodeAt_self _ _ _ x hx

/-- C9 witness: matching 10.1.2.3/32 against a one-route table keeps the
count and bumps only the returned node's lock. -/
theorem C9_read_only_witness :
    (bgp_node_match
        { top := .node { newLeaf ⟨8, [10, 0, 0, 0]⟩ none with info := true } .nil .nil,
          count := 1 } ⟨32, [10, 1, 2, 3]⟩).1.count = 1 ∧
    stripLocks (bgp_node_match
        { top := .node { newLeaf ⟨8, [10, 0, 0, 0]⟩ none with info := true } .nil .nil,
          count := 1 } ⟨32, [10, 1, 2, 3]⟩).1.top =
      stripLocks (.node { newLeaf ⟨8, [10, 0, 0, 0]⟩ none with info := true } .nil .nil) := by
  have h := (C9_read_only
      { top := .node { newLeaf ⟨8, [10, 0, 0, 0]⟩ none with info := true } .nil .nil,
        count := 1 } ⟨32, [10, 1, 2, 3]⟩).2.2.2.1 [] (by decide)
  exact ⟨h.1, h.2.1⟩

/-! ## Iteration: pure navigation lemmas -/

theorem subAt_append : ∀ (bs : List Bool) (t : RTree) (bs' : List Bool),
    subAt t (bs ++ bs') = subAt (subAt t bs) bs' := by
  intro bs
  induction bs with
  | nil => intro t bs'; cases t <;> rfl
  | cons b bs ih =>
    intro t bs'
    cases t with
    | nil => cases bs' <;> simp [subAt]
    | node d l r =>
      cases b <;> simp [subAt, ih]

theorem ascend_snoc (t : RTree) (π : List Bool) (b : Bool) :
    ascend t (π ++ [b]) =
      if b = false ∧ ¬ isNil (rightOf (subAt t π)) then some (π ++ [true])
      else ascend t π := by
  unfold ascend
  rw [List.reverse_append]
  simp [ascendRev]

theorem ascendRev_length : ∀ (ρ : List Bool) (t : RTree) (out : List Bool),
    ascendRev t ρ = some out → out.length ≤ ρ.length := by
  intro ρ
  induction ρ with
  | nil => intro t out h; simp [ascendRev] at h
  | cons b rest ih =>
    intro t out h
    rw [ascendRev] at h
    by_cases hc : b = false ∧ ¬ isNil (rightOf (subAt t rest.reverse))
    · rw [if_pos hc] at h
      cases h
      simp
    · rw [if_neg hc] at h
      have := ih t out h
      simp
      omega

theorem ascendRev_ne : ∀ (ρ : List Bool) (t : RTree) (out : List Bool),
    ascendRev t ρ = some out → out ≠ ρ.reverse := by
  intro ρ
  induction ρ with
  | nil => intro t out h; simp [ascendRev] at h
  | cons b rest ih =>
    intro t out h
    rw [ascendRev] at h
    by_cases hc : b = false ∧ ¬ isNil (rightOf (subAt t rest.reverse))
    · rw [if_pos hc] at h
      cases h
      simp [hc.1]
    · rw [if_neg hc] at h
      have hlen := ascendRev_length rest t out h
      intro he
      rw [he] at hlen
      simp at hlen

theorem routeNextP_ne (t : RTree) (π π' : List Bool) (h : routeNextP t π = some π') :
    π' ≠ π := by
  rw [routeNextP] at h
  by_cases h0 : isNil (subAt t π)
  · rw [if_pos h0] at h; cases h
  · rw [if_neg h0] at h
    by_cases h1 : ¬ isNil (leftOf (subAt t π))
    · rw [if_pos h1] at h
      cases h
      simp
    · rw [if_neg h1] at h
      by_cases h2 : ¬ isNil (rightOf (subAt t π))
      · rw [if_pos h2] at h
        cases h
        simp
      · rw [if_neg h2] at h
        have := ascendRev_ne π.reverse t π' (by simpa [ascend] using h)
        simpa using this

theorem ascendRev_valid : ∀ (ρ : List Bool) (t : RTree) (out : List Bool),
    ascendRev t ρ = some out → isNil (subAt t out) = false := by
  intro ρ
  induction ρ with
  | nil => intro t out h; simp [ascendRev] at h
  | cons b rest ih =>
    intro t out h
    rw [ascendRev] at h
    by_cases hc : b = false ∧ ¬ isNil (rightOf (subAt t rest.reverse))
    · rw [if_pos hc] at h
      cases h
      rw [subAt_append]
      cases hs : subAt t rest.reverse with
      | nil => rw [hs] at hc; simp [rightOf, isNil] at hc
      | node d l r =>
        rw [hs] at hc
        simp only [subAt, if_pos rfl]
        cases r with
        | nil => simp [rightOf, isNil] at hc
        | node rd rl rr => rfl
    · rw [if_neg hc] at h
      exact ih t out h

theorem routeNextP_valid (t : RTree) (π π' : List Bool) (h : routeNextP t π = some π') :
    isNil (subAt t π') = false := by
  rw [routeNextP] at h
  by_cases h0 : isNil (subAt t π)
  · rw [if_pos h0] at h; cases h
  · rw [if_neg h0] at h
    by_cases h1 : ¬ isNil (leftOf (subAt t π))
    · rw [if_pos h1] at h
      cases h
      rw [subAt_append]
      cases hs : subAt t π with
      | nil => rw [hs] at h0; simp [isNil] at h0
      | node d l r =>
        rw [hs] at h1
        simp only [subAt, if_neg (by simp : ¬ (false = true))]
        cases l with
        | nil => simp [leftOf, isNil] at h1
        | node ld ll lr => rfl
    · rw [if_neg h1] at h
      by_cases h2 : ¬ isNil (rightOf (subAt t π))
      · rw [if_pos h2] at h
        cases h
        rw [subAt_append]
        cases hs : subAt t π with
        | nil => rw [hs] at h0; simp [isNil] at h0
        | node d l r =>
          rw [hs] at h2
          simp only [subAt, if_pos rfl]
          cases r with
          | nil => simp [rightOf, isNil] at h2
          | node rd rl rr => rfl
      · rw [if_neg h2] at h
        exact ascendRev_valid π.reverse t π' h


theorem iterGo_none (t : RTree) (fuel : Nat) : iterGo t fuel none = [] := by
  cases fuel <;> rfl

/-- The successor computation walks a subtree in exactly its pre-order and
then continues from the upward walk of the subtree's root path. -/
theorem iterGo_sub : ∀ (s t : RTree) (π : List Bool), subAt t π = s → isNil s = false →
    ∀ fuel, iterGo t (fuel + size s) (some π) =
      (preorderPaths s).map (fun σ => π ++ σ) ++ iterGo t fuel (ascend t π) := by
  intro s
  induction s with
  | nil => intro t π _ hnil; simp [isNil] at hnil
  | node d l r ihl ihr =>
    intro t π hsub _ fuel
    have hroute : routeNextP t π =
        (if ¬ isNil l then some (π ++ [false])
          else if ¬ isNil r then some (π ++ [true]) else ascend t π) := by
      rw [routeNextP, hsub]
      simp [isNil, leftOf, rightOf]
    have hsl : subAt t (π ++ [false]) = l := by
      rw [subAt_append, hsub]; simp [subAt]
    have hsr : subAt t (π ++ [true]) = r := by
      rw [subAt_append, hsub]; simp [subAt]
    have hasl : ascend t (π ++ [false]) =
        (if ¬ isNil r then some (π ++ [true]) else ascend t π) := by
      rw [ascend_snoc, hsub]
      by_cases hr : isNil r
      · simp [rightOf, hr]
      · simp [rightOf, hr]
    have hasr : ascend t (π ++ [true]) = ascend t π := by
      rw [ascend_snoc]
      simp
    have hstep : iterGo t (fuel + size (.node d l r)) (some π) =
        π :: iterGo t (fuel + size l + size r) (routeNextP t π) := by
      rw [show fuel + size (.node d l r) = (fuel + size l + size r) + 1 by simp [size]; omega]
      rfl
    rw [hstep, preorderPaths]
    cases l with
    | nil =>
      cases r with
      | nil =>
        rw [hroute]
        simp [isNil, preorderPaths, size]
      | node rd rl rr =>
        rw [hroute]
        have hr := ihr t (π ++ [true]) hsr rfl fuel
        rw [hasr] at hr
        simp only [isNil, size, Nat.add_zero, Nat.zero_add] at hr ⊢
        rw [if_neg (show ¬ ¬ True by simp), if_pos (show ¬ (false = true) by simp)]
        rw [hr]
        simp [preorderPaths, Function.comp_def]
    | node ld ll lr =>
      rw [hroute]
      rw [if_pos (by simp [isNil] : ¬ isNil (.node ld ll lr) = true)]
      cases r with
      | nil =>
        have hl := ihl t (π ++ [false]) hsl rfl fuel
        rw [hasl] at hl
        rw [if_neg (by simp [isNil] : ¬ ¬ isNil (.nil : RTree) = true)] at hl
        simp only [isNil, size, Nat.add_zero, Nat.zero_add] at hl ⊢
        rw [hl]
        simp [preorderPaths, Function.comp_def]
      | node rd rl rr =>
        have hr := ihr t (π ++ [true]) hsr rfl fuel
        rw [hasr] at hr
        have hl := ihl t (π ++ [false]) hsl rfl (fuel + size (.node rd rl rr))
        rw [hasl] at hl
        rw [if_pos (by simp [isNil] : ¬ isNil (.node rd rl rr) = true)] at hl
        simp only [isNil, size, Nat.add_zero, Nat.zero_add] at hl hr ⊢
        rw [show fuel + (1 + size ll + size lr) + (1 + size rl + size rr) =
          fuel + (1 + size rl + size rr) + (1 + size ll + size lr) by omega]
        rw [hl, hr]
        simp [preorderPaths, Function.comp_def, List.append_assoc]

theorem preorderPaths_length : ∀ (t : RTree), (preorderPaths t).length = size t := by
  intro t
  induction t with
  | nil => rfl
  | node d l r ihl ihr => simp [preorderPaths, size, ihl, ihr]; omega

theorem preorderPaths_mem : ∀ (t : RTree) (π : List Bool),
    π ∈ preorderPaths t ↔ isNil (subAt t π) = false := by
  intro t
  induction t with
  | nil =>
    intro π
    simp only [preorderPaths, List.not_mem_nil, false_iff]
    cases π <;> simp [subAt, isNil]
  | node d l r ihl ihr =>
    intro π
    cases π with
    | nil => simp [preorderPaths, subAt, isNil]
    | cons b bs =>
      simp only [preorderPaths, List.mem_cons, List.mem_append, List.mem_map]
      cases b with
      | false =>
        simp only [subAt, if_neg (by simp : ¬ (false = true))]
        rw [← ihl bs]
        constructor
        · intro h
          rcases h with h | ⟨a, ha, he⟩ | ⟨a, ha, he⟩
          · cases h
          · cases he; exact ha
          · cases he
        · intro h
          right; left
          exact ⟨bs, h, rfl⟩
      | true =>
        simp only [subAt, if_true]
        rw [← ihr bs]
        constructor
        · intro h
          rcases h with h | ⟨a, ha, he⟩ | ⟨a, ha, he⟩
          · cases h
          · cases he
          · cases he; exact ha
        · intro h
          right; right
          exact ⟨bs, h, rfl⟩

theorem preorderPaths_nodup : ∀ (t : RTree), (preorderPaths t).Nodup := by
  intro t
  induction t with
  | nil => exact List.nodup_nil
  | node d l r ihl ihr =>
    rw [preorderPaths]
    refine List.nodup_cons.mpr ⟨?_, ?_⟩
    · simp only [List.mem_append, List.mem_map]
      rintro (⟨a, _, ha⟩ | ⟨a, _, ha⟩) <;> cases ha
    · refine List.Nodup.append ?_ ?_ ?_
      · exact ihl.map (fun a b h => by injection h)
      · exact ihr.map (fun a b h => by injection h)
      · intro x hx hy
        simp only [List.mem_map] at hx hy
        obtain ⟨a, _, ha⟩ := hx
        obtain ⟨b, _, hb⟩ := hy
        rw [← ha] at hb
        simp at hb

/-- The pure part of the iteration claim: from the root, the successor
computation lists exactly the pre-order paths, with any sufficient fuel. -/
theorem iterGo_preorder (t : RTree) (hne : isNil t = false) (fuel : Nat)
    (hf : size t ≤ fuel) : iterGo t fuel (some []) = preorderPaths t := by
  have h := iterGo_sub t t [] (by cases t <;> rfl) hne (fuel - size t)
  rw [show fuel - size t + size t = fuel by omega] at h
  rw [h]
  have : ascend t [] = none := rfl
  rw [this, iterGo_none]
  simp

/-! ## Iteration: lock hand-off algebra -/

theorem modifyAt_modifyAt : ∀ (t : RTree) (bs : List Bool) (f g : NodeData → NodeData),
    modifyAt (modifyAt t bs f) bs g = modifyAt t bs (fun x => g (f x)) := by
  intro t
  induction t with
  | nil => intro bs f g; cases bs <;> rfl
  | node d l r ihl ihr =>
    intro bs f g
    cases bs with
    | nil => rfl
    | cons b bs =>
      cases b <;> simp [modifyAt, ihl, ihr]

theorem modifyAt_congr_id : ∀ (t : RTree) (bs : List Bool) (f : NodeData → NodeData),
    (∀ x, f x = x) → modifyAt t bs f = t := by
  intro t
  induction t with
  | nil => intro bs f _; cases bs <;> rfl
  | node d l r ihl ihr =>
    intro bs f hf
    cases bs with
    | nil => simp [modifyAt, hf]
    | cons b bs =>
      cases b <;> simp [modifyAt, ihl _ _ hf, ihr _ _ hf]

theorem modifyAt_eq_self : ∀ (t : RTree) (bs : List Bool) (f : NodeData → NodeData)
    (d : NodeData), nodeAt t bs = some d → f d = d → modifyAt t bs f = t := by
  intro t
  induction t with
  | nil => intro bs f d h; cases bs <;> simp [nodeAt, subAt, dataOf] at h
  | node d0 l r ihl ihr =>
    intro bs f d h hf
    cases bs with
    | nil =>
      simp [nodeAt, subAt, dataOf] at h
      subst h
      simp [modifyAt, hf]
    | cons b bs =>
      cases b with
      | false =>
        simp only [nodeAt, subAt, if_neg (by simp : ¬ (false = true))] at h
        simp [modifyAt, ihl bs f d h hf]
      | true =>
        simp only [nodeAt, subAt, if_true] at h
        simp [modifyAt, ihr bs f d h hf]

theorem modifyAt_comm : ∀ (t : RTree) (bs bs' : List Bool) (f g : NodeData → NodeData),
    bs ≠ bs' → modifyAt (modifyAt t bs f) bs' g = modifyAt (modifyAt t bs' g) bs f := by
  intro t
  induction t with
  | nil => intro bs bs' f g _; cases bs <;> cases bs' <;> rfl
  | node d l r ihl ihr =>
    intro bs bs' f g hne
    cases bs with
    | nil =>
      cases bs' with
      | nil => exact absurd rfl hne
      | cons b' bs' => cases b' <;> simp [modifyAt]
    | cons b bs =>
      cases bs' with
      | nil => cases b <;> simp [modifyAt]
      | cons b' bs' =>
        cases b with
        | false =>
          cases b' with
          | false =>
            simp [modifyAt, ihl bs bs' f g (fun h => hne (by rw [h]))]
          | true => simp [modifyAt]
        | true =>
          cases b' with
          | false => simp [modifyAt]
          | true =>
            simp [modifyAt, ihr bs bs' f g (fun h => hne (by rw [h]))]

theorem subAt_modifyAt_self : ∀ (t : RTree) (bs : List Bool) (f : NodeData → NodeData)
    (d : NodeData) (l r : RTree), subAt t bs = .node d l r →
    subAt (modifyAt t bs f) bs = .node (f d) l r := by
  intro t
  induction t with
  | nil =>
    intro bs f d l r h
    cases bs <;> simp [subAt] at h
  | node d0 l0 r0 ihl ihr =>
    intro bs f d l r h
    cases bs with
    | nil =>
      simp [subAt] at h
      obtain ⟨h1, h2, h3⟩ := h
      subst h1; subst h2; subst h3
      rfl
    | cons b bs =>
      cases b with
      | false =>
        simp only [subAt, if_neg (by simp : ¬ (false = true))] at h
        simpa [modifyAt, subAt] using ihl bs f d l r h
      | true =>
        simp only [subAt, if_true] at h
        simpa [modifyAt, subAt] using ihr bs f d l r h

theorem nodeAt_some_node (t : RTree) (bs : List Bool) (d : NodeData)
    (h : nodeAt t bs = some d) : ∃ l r, subAt t bs = .node d l r := by
  unfold nodeAt at h
  cases hs : subAt t bs with
  | nil => rw [hs] at h; cases h
  | node d0 l r =>
    rw [hs] at h
    simp [dataOf] at h
    subst h
    exact ⟨l, r, rfl⟩

theorem stripLocks_subAt : ∀ (t : RTree) (bs : List Bool),
    subAt (stripLocks t) bs = stripLocks (subAt t bs) := by
  intro t
  induction t with
  | nil => intro bs; cases bs <;> rfl
  | node d l r ihl ihr =>
    intro bs
    cases bs with
    | nil => rfl
    | cons b bs =>
      cases b <;> simp [stripLocks, subAt, ihl, ihr]

theorem isNil_stripLocks (t : RTree) : isNil (stripLocks t) = isNil t := by
  cases t <;> rfl

theorem leftOf_stripLocks (t : RTree) : leftOf (stripLocks t) = stripLocks (leftOf t) := by
  cases t <;> rfl

theorem rightOf_stripLocks (t : RTree) : rightOf (stripLocks t) = stripLocks (rightOf t) := by
  cases t <;> rfl

theorem stripLocks_modifyAt_lock : ∀ (t : RTree) (bs : List Bool) (f : NodeData → NodeData),
    (∀ x, ({ f x with lock := 0 } : NodeData) = { x with lock := 0 }) →
    stripLocks (modifyAt t bs f) = stripLocks t := by
  intro t
  induction t with
  | nil => intro bs f _; cases bs <;> rfl
  | node d l r ihl ihr =>
    intro bs f hf
    cases bs with
    | nil => simp [modifyAt, stripLocks, hf]
    | cons b bs =>
      cases b <;> simp [modifyAt, stripLocks, ihl _ _ hf, ihr _ _ hf]

/-- Deleting a node that has both children is a no-op, wherever it sits. -/
theorem delGo_noop : ∀ (t : RTree) (bs : List Bool) (d : NodeData) (l r : RTree),
    subAt t bs = .node d l r → isNil l = false → isNil r = false →
    delGo t bs = (t, 0, false) := by
  intro t
  induction t with
  | nil => intro bs d l r h; cases bs <;> simp [subAt] at h
  | node d0 l0 r0 ihl ihr =>
    intro bs d l r h hl hr
    cases bs with
    | nil =>
      simp [subAt] at h
      obtain ⟨h1, h2, h3⟩ := h
      subst h1; subst h2; subst h3
      simp [delGo, nodeDelete1, hl, hr]
    | cons b bs =>
      cases b with
      | false =>
        simp only [subAt, if_neg (by simp : ¬ (false = true))] at h
        rw [delGo]
        simp only [if_neg (by simp : ¬ (false = true)), ihl bs d l r h hl hr]
        simp
      | true =>
        simp only [subAt, if_true] at h
        rw [delGo]
        simp only [if_true, ihr bs d l r h hl hr]
        simp

theorem lockSafe_at : ∀ (t : RTree), lockSafe t = true → ∀ (bs : List Bool) (d : NodeData)
    (l r : RTree), subAt t bs = .node d l r →
    0 < d.lock ∨ (isNil l = false ∧ isNil r = false) := by
  intro t
  induction t with
  | nil => intro _ bs d l r h; cases bs <;> simp [subAt] at h
  | node d0 l0 r0 ihl ihr =>
    intro hls bs d l r h
    rw [lockSafe] at hls
    simp only [Bool.and_eq_true, Bool.or_eq_true, decide_eq_true_eq] at hls
    cases bs with
    | nil =>
      simp [subAt] at h
      obtain ⟨h1, h2, h3⟩ := h
      subst h1; subst h2; subst h3
      rcases hls.1.1 with h | h
      · exact Or.inl h
      · simp only [Bool.and_eq_true, Bool.not_eq_true'] at h
        exact Or.inr ⟨h.1, h.2⟩
    | cons b bs =>
      cases b with
      | false =>
        simp only [subAt, if_neg (by simp : ¬ (false = true))] at h
        exact ihl hls.1.2 bs d l r h
      | true =>
        simp only [subAt, if_true] at h
        exact ihr hls.2 bs d l r h

/-- The successor computation only reads the shape of the tree: trees equal
up to lock counters give the same successor. -/
theorem ascendRev_strip : ∀ (ρ : List Bool) (t t' : RTree),
    stripLocks t = stripLocks t' → ascendRev t ρ = ascendRev t' ρ := by
  intro ρ
  induction ρ with
  | nil => intro t t' _; rfl
  | cons b rest ih =>
    intro t t' hs
    have hr : isNil (rightOf (subAt t rest.reverse)) =
        isNil (rightOf (subAt t' rest.reverse)) := by
      rw [← isNil_stripLocks, ← isNil_stripLocks (rightOf (subAt t' rest.reverse)),
        ← rightOf_stripLocks, ← rightOf_stripLocks,
        ← stripLocks_subAt, ← stripLocks_subAt, hs]
    rw [ascendRev, ascendRev, hr, ih t t' hs]

theorem routeNextP_strip (t t' : RTree) (π : List Bool)
    (hs : stripLocks t = stripLocks t') : routeNextP t π = routeNextP t' π := by
  have h0 : isNil (subAt t π) = isNil (subAt t' π) := by
    rw [← isNil_stripLocks, ← isNil_stripLocks (subAt t' π), ← stripLocks_subAt,
      ← stripLocks_subAt, hs]
  have h1 : isNil (leftOf (subAt t π)) = isNil (leftOf (subAt t' π)) := by
    rw [← isNil_stripLocks, ← isNil_stripLocks (leftOf (subAt t' π)), ← leftOf_stripLocks,
      ← leftOf_stripLocks, ← stripLocks_subAt, ← stripLocks_subAt, hs]
  have h2 : isNil (rightOf (subAt t π)) = isNil (rightOf (subAt t' π)) := by
    rw [← isNil_stripLocks, ← isNil_stripLocks (rightOf (subAt t' π)), ← rightOf_stripLocks,
      ← rightOf_stripLocks, ← stripLocks_subAt, ← stripLocks_subAt, hs]
  rw [routeNextP, routeNextP, h0, h1, h2]
  unfold ascend
  rw [ascendRev_strip π.reverse t t' hs]

theorem modifyAt_congr_at : ∀ (t : RTree) (bs : List Bool) (f g : NodeData → NodeData)
    (d : NodeData), nodeAt t bs = some d → f d = g d → modifyAt t bs f = modifyAt t bs g := by
  intro t
  induction t with
  | nil => intro bs f g d h; cases bs <;> simp [nodeAt, subAt, dataOf] at h
  | node d0 l r ihl ihr =>
    intro bs f g d h hfg
    cases bs with
    | nil =>
      simp [nodeAt, subAt, dataOf] at h
      subst h
      simp [modifyAt, hfg]
    | cons b bs =>
      cases b with
      | false =>
        simp only [nodeAt, subAt, if_neg (by simp : ¬ (false = true))] at h
        simp [modifyAt, ihl bs f g d h hfg]
      | true =>
        simp only [nodeAt, subAt, if_true] at h
        simp [modifyAt, ihr bs f g d h hfg]

/-- `bgp_unlock_node` on a node that is still locked after the decrement,
or that has both children, only decrements the lock. -/
theorem unlockGo_no_delete (T : RTree) (π : List Bool) (dT : NodeData) (lT rT : RTree)
    (hsub : subAt T π = .node dT lT rT)
    (hsafe : dT.lock ≠ 1 ∨ (isNil lT = false ∧ isNil rT = false)) :
    unlockGo T π = (modifyAt T π (fun d => { d with lock := d.lock - 1 }), 0) := by
  have hnT : nodeAt T π = some dT := by
    unfold nodeAt
    rw [hsub]
    rfl
  unfold unlockGo
  rw [hnT]
  simp only
  by_cases hl : dT.lock = 1
  · rw [if_pos hl]
    rcases hsafe with h | ⟨hland, hrand⟩
    · exact absurd hl h
    · have hsub' := subAt_modifyAt_self T π (fun d => { d with lock := 0 }) dT lT rT hsub
      have hdel := delGo_noop _ π _ lT rT hsub' hland hrand
      rw [hdel]
      have : modifyAt T π (fun d => ({ d with lock := 0 } : NodeData)) =
          modifyAt T π (fun d => { d with lock := d.lock - 1 }) :=
        modifyAt_congr_at T π _ _ dT hnT (by rw [hl])
      rw [this]
  · rw [if_neg hl]

/-- The lock hand-off of `bgp_route_next` on a lock-safe underlying tree:
with the iterator's lock on `π`, locking `π'` and unlocking `π` moves the
extra lock without deleting or reshaping anything. -/
theorem handoff (t0 : RTree) (π π' : List Bool) (hls : lockSafe t0 = true)
    (d0 : NodeData) (l0 r0 : RTree) (hsub : subAt t0 π = .node d0 l0 r0)
    (hne : π' ≠ π) :
    unlockGo (bumpAt (bumpAt t0 π) π') π = (bumpAt t0 π', 0) := by
  have hn0 : nodeAt t0 π = some d0 := by
    unfold nodeAt
    rw [hsub]
    rfl
  have hn1 : nodeAt (bumpAt t0 π) π = some { d0 with lock := d0.lock + 1 } :=
    modifyAt_nodeAt_self t0 π _ d0 hn0
  have hn2 : nodeAt (bumpAt (bumpAt t0 π) π') π = some { d0 with lock := d0.lock + 1 } := by
    rw [bumpAt, modifyAt_nodeAt_other (bumpAt t0 π) π' π _ hne]
    exact hn1
  obtain ⟨lT, rT, hsubT⟩ := nodeAt_some_node _ π _ hn2
  have hstrip : stripLocks (bumpAt (bumpAt t0 π) π') = stripLocks t0 := by
    rw [stripLocks_bumpAt, stripLocks_bumpAt]
  have hshape : isNil lT = isNil l0 ∧ isNil rT = isNil r0 := by
    have h1 : stripLocks (subAt (bumpAt (bumpAt t0 π) π') π) = stripLocks (subAt t0 π) := by
      rw [← stripLocks_subAt, ← stripLocks_subAt, hstrip]
    rw [hsubT, hsub] at h1
    simp only [stripLocks, RTree.node.injEq] at h1
    rw [← isNil_stripLocks lT, ← isNil_stripLocks l0, ← isNil_stripLocks rT,
      ← isNil_stripLocks r0, h1.2.1, h1.2.2]
    exact ⟨rfl, rfl⟩
  have hdec : unlockGo (bumpAt (bumpAt t0 π) π') π =
      (modifyAt (bumpAt (bumpAt t0 π) π') π (fun d => { d with lock := d.lock - 1 }), 0) := by
    apply unlockGo_no_delete _ π _ lT rT hsubT
    by_cases hl0 : d0.lock = 0
    · right
      rcases lockSafe_at t0 hls π d0 l0 r0 hsub with h | h
      · omega
      · rw [hshape.1, hshape.2]
        exact h
    · left
      simp only
      omega
  rw [hdec]
  rw [bumpAt, bumpAt, modifyAt_comm _ π' π _ _ hne, modifyAt_modifyAt]
  rw [modifyAt_congr_id t0 π _ (fun x => by simp)]
  rfl

/-- A single `bgp_route_next` step over a lock-safe underlying tree. -/
theorem route_next_step (t0 : RTree) (π : List Bool) (c : Nat) (hls : lockSafe t0 = true)
    (hv : isNil (subAt t0 π) = false) :
    bgp_route_next { top := bumpAt t0 π, count := c } π =
      (match routeNextP t0 π with
        | some π' => ({ top := bumpAt t0 π', count := c }, some π')
        | none => ({ top := t0, count := c }, none)) := by
  obtain ⟨d0, l0, r0, hsub⟩ : ∃ d0 l0 r0, subAt t0 π = .node d0 l0 r0 := by
    cases hs : subAt t0 π with
    | nil => rw [hs] at hv; simp [isNil] at hv
    | node d l r => exact ⟨d, l, r, rfl⟩
  have hroute : routeNextP (bumpAt t0 π) π = routeNextP t0 π :=
    routeNextP_strip _ _ π (stripLocks_bumpAt t0 π)
  unfold bgp_route_next
  simp only [hroute]
  cases hrn : routeNextP t0 π with
  | some π' =>
    have hne := routeNextP_ne t0 π π' hrn
    have hu := handoff t0 π π' hls d0 l0 r0 hsub hne
    simp [bgp_unlock_node, hu]
  | none =>
    have hn0 : nodeAt t0 π = some d0 := by
      unfold nodeAt
      rw [hsub]
      rfl
    obtain ⟨lT, rT, hsubT⟩ := nodeAt_some_node (bumpAt t0 π) π _
      (modifyAt_nodeAt_self t0 π _ d0 hn0)
    have hshape : isNil lT = isNil l0 ∧ isNil rT = isNil r0 := by
      have h1 : stripLocks (subAt (bumpAt t0 π) π) = stripLocks (subAt t0 π) := by
        rw [← stripLocks_subAt, ← stripLocks_subAt, stripLocks_bumpAt]
      rw [hsubT, hsub] at h1
      simp only [stripLocks, RTree.node.injEq] at h1
      rw [← isNil_stripLocks lT, ← isNil_stripLocks l0, ← isNil_stripLocks rT,
        ← isNil_stripLocks r0, h1.2.1, h1.2.2]
      exact ⟨rfl, rfl⟩
    have hdec : unlockGo (bumpAt t0 π) π =
        (modifyAt (bumpAt t0 π) π (fun d => { d with lock := d.lock - 1 }), 0) := by
      apply unlockGo_no_delete _ π _ lT rT hsubT
      by_cases hl0 : d0.lock = 0
      · right
        rcases lockSafe_at t0 hls π d0 l0 r0 hsub with h | h
        · omega
        · rw [hshape.1, hshape.2]
          exact h
      · left
        simp only
        omega
    have hu : unlockGo (bumpAt t0 π) π = (t0, 0) := by
      rw [hdec, bumpAt, modifyAt_modifyAt, modifyAt_congr_id t0 π _ (fun x => by simp)]
    simp [bgp_unlock_node, hu]

theorem iterS_none (tbl : Table) (fuel : Nat) : (iterS tbl fuel none).1 = [] := by
  cases fuel <;> rfl

/-- Over a lock-safe underlying tree, the stateful iteration (with its lock
hand-offs and deletion checks) visits exactly what the successor
computation alone visits. -/
theorem iterS_eq_iterGo (t0 : RTree) (hls : lockSafe t0 = true) :
    ∀ (fuel : Nat) (π : List Bool) (c : Nat), isNil (subAt t0 π) = false →
    (iterS { top := bumpAt t0 π, count := c } fuel (some π)).1 = iterGo t0 fuel (some π) := by
  intro fuel
  induction fuel with
  | zero => intro π c _; rfl
  | succ fuel ih =>
    intro π c hv
    rw [iterS, iterGo]
    rw [route_next_step t0 π c hls hv]
    cases hrn : routeNextP t0 π with
    | some π' =>
      simp only
      rw [ih π' c (routeNextP_valid t0 π π' hrn)]
    | none =>
      simp only
      rw [iterS_none, iterGo_none]

theorem getGo_ne_nil : ∀ (t : RTree) (p : Pfx) (prn : Option Nat),
    isNil (getGo t p prn).1 = false := by
  intro t p prn
  cases t with
  | nil => rfl
  | node d l r =>
    by_cases h1 : d.p.prefixlen ≤ p.prefixlen ∧ prefix_match d.p p = true
    · by_cases h2 : d.p.prefixlen = p.prefixlen
      · rw [getGo_exact d l r p prn h1.2 h2]; rfl
      · by_cases hb : prefix_bit p.bytes d.p.prefixlen
        · cases r with
          | nil => rw [getGo_right_nil d l p prn h1.2 h2 hb]; rfl
          | node rd rl rr => rw [getGo_right d l rd rl rr p prn h1.2 h2 hb]; rfl
        · rw [Bool.not_eq_true] at hb
          cases l with
          | nil => rw [getGo_left_nil d r p prn h1.2 h2 hb]; rfl
          | node ld ll lr => rw [getGo_left d ld ll lr r p prn h1.2 h2 hb]; rfl
    · by_cases hc : (route_common d.p p).prefixlen = p.prefixlen
      · rw [getGo_diverge_glue d l r p prn h1 hc]; rfl
      · rw [getGo_diverge_two d l r p prn h1 hc]; rfl

theorem lockSafe_node_of (d : NodeData) (l r : RTree)
    (h1 : 0 < d.lock ∨ (isNil l = false ∧ isNil r = false))
    (h2 : lockSafe l = true) (h3 : lockSafe r = true) :
    lockSafe (.node d l r) = true := by
  rw [lockSafe]
  simp only [Bool.and_eq_true, Bool.or_eq_true, decide_eq_true_eq, Bool.not_eq_true']
  exact ⟨⟨by rcases h1 with h | h; exact Or.inl h; exact Or.inr ⟨h.1, h.2⟩, h2⟩, h3⟩

theorem lockSafe_leaf (p : Pfx) (prn : Option Nat) :
    lockSafe (.node (newLeaf p prn) .nil .nil) = true :=
  lockSafe_node_of _ _ _ (Or.inl (by simp [newLeaf, zeroNode])) rfl rfl

theorem getGo_lockSafe : ∀ (t : RTree) (p : Pfx) (prn : Option Nat),
    lockSafe t = true → lockSafe (getGo t p prn).1 = true := by
  intro t
  induction t with
  | nil => intro p prn _; simp [getGo_nil, lockSafe, newLeaf, zeroNode, isNil]
  | node d l r ihl ihr =>
    intro p prn hls
    rw [lockSafe] at hls
    simp only [Bool.and_eq_true, Bool.or_eq_true, decide_eq_true_eq] at hls
    obtain ⟨⟨hd, hl⟩, hr⟩ := hls
    by_cases h1 : d.p.prefixlen ≤ p.prefixlen ∧ prefix_match d.p p = true
    · by_cases h2 : d.p.prefixlen = p.prefixlen
      · rw [getGo_exact d l r p prn h1.2 h2]
        rw [lockSafe]
        simp only [Bool.and_eq_true, Bool.or_eq_true, decide_eq_true_eq]
        exact ⟨⟨Or.inl (by simp), hl⟩, hr⟩
      · by_cases hb : prefix_bit p.bytes d.p.prefixlen
        · cases r with
          | nil =>
            rw [getGo_right_nil d l p prn h1.2 h2 hb]
            rw [lockSafe]
            simp only [Bool.and_eq_true, Bool.or_eq_true, decide_eq_true_eq]
            refine ⟨⟨?_, hl⟩, by simp [lockSafe, newLeaf, zeroNode, isNil]⟩
            rcases hd with h | h
            · exact Or.inl h
            · simp [isNil] at h
          | node rd rl rr =>
            rw [getGo_right d l rd rl rr p prn h1.2 h2 hb]
            rw [lockSafe]
            simp only [Bool.and_eq_true, Bool.or_eq_true, decide_eq_true_eq]
            refine ⟨⟨?_, hl⟩, ihr p prn hr⟩
            rcases hd with h | h
            · exact Or.inl h
            · right
              simp only [Bool.and_eq_true, Bool.not_eq_true'] at h ⊢
              exact ⟨h.1, getGo_ne_nil _ p prn⟩
        · rw [Bool.not_eq_true] at hb
          cases l with
          | nil =>
            rw [getGo_left_nil d r p prn h1.2 h2 hb]
            rw [lockSafe]
            simp only [Bool.and_eq_true, Bool.or_eq_true, decide_eq_true_eq]
            refine ⟨⟨?_, by simp [lockSafe, newLeaf, zeroNode, isNil]⟩, hr⟩
            rcases hd with h | h
            · exact Or.inl h
            · simp [isNil] at h
          | node ld ll lr =>
            rw [getGo_left d ld ll lr r p prn h1.2 h2 hb]
            rw [lockSafe]
            simp only [Bool.and_eq_true, Bool.or_eq_true, decide_eq_true_eq]
            refine ⟨⟨?_, ihl p prn hl⟩, hr⟩
            rcases hd with h | h
            · exact Or.inl h
            · right
              simp only [Bool.and_eq_true, Bool.not_eq_true'] at h ⊢
              exact ⟨getGo_ne_nil _ p prn, h.2⟩
    · have hlsn : lockSafe (.node d l r) = true := by
        rw [lockSafe]
        simp only [Bool.and_eq_true, Bool.or_eq_true, decide_eq_true_eq]
        exact ⟨⟨hd, hl⟩, hr⟩
      by_cases hc : (route_common d.p p).prefixlen = p.prefixlen
      · rw [getGo_diverge_glue d l r p prn h1 hc]
        cases prefix_bit d.p.bytes (route_common d.p p).prefixlen with
        | false =>
          simp only [if_neg (show ¬ (false = true) by simp)]
          exact lockSafe_node_of _ _ _ (Or.inl (by norm_num)) hlsn rfl
        | true =>
          simp only [if_true]
          exact lockSafe_node_of _ _ _ (Or.inl (by norm_num)) rfl hlsn
      · rw [getGo_diverge_two d l r p prn h1 hc]
        have hbb := route_common_ne_bit d.p p hc
        cases hbn : prefix_bit d.p.bytes (route_common d.p p).prefixlen with
        | false =>
          cases hbp : prefix_bit p.bytes (route_common d.p p).prefixlen with
          | false => rw [hbn, hbp] at hbb; exact absurd rfl hbb
          | true =>
            simp only [place2, if_neg (show ¬ (false = true) by simp), if_true]
            exact lockSafe_node_of _ _ _ (Or.inr ⟨rfl, rfl⟩) hlsn (lockSafe_leaf p prn)
        | true =>
          cases hbp : prefix_bit p.bytes (route_common d.p p).prefixlen with
          | false =>
            simp only [place2, if_neg (show ¬ (false = true) by simp), if_true]
            exact lockSafe_node_of _ _ _ (Or.inr ⟨rfl, rfl⟩) (lockSafe_leaf p prn) hlsn
          | true => rw [hbn, hbp] at hbb; exact absurd rfl hbb

theorem runGets_lockSafe (l : List (Pfx × Option Nat)) :
    lockSafe (runGets l).top = true := by
  have hmain : ∀ (xs : List (Pfx × Option Nat)) (tbl : Table), lockSafe tbl.top = true →
      lockSafe (xs.foldl (fun tbl pq => (bgp_node_get tbl pq.1 pq.2).1) tbl).top = true := by
    intro xs
    induction xs with
    | nil => intro tbl h; exact h
    | cons x xs ih =>
      intro tbl h
      apply ih
      rcases hg : getGo tbl.top x.1 x.2 with ⟨t', bs, k⟩
      have := getGo_lockSafe tbl.top x.1 x.2 h
      rw [hg] at this
      simp [bgp_node_get, hg]
      exact this
  exact hmain l bgp_table_init rfl

/-! ## Claim C7 -/

/-- C7: on a table built by any sequence of insertions, iterating with
`bgp_table_top` followed by repeated `bgp_route_next` — including every
lock hand-off and deletion check the step performs — visits every node of
the table exactly once, in pre-order (a node before its children, left
child before right, which is what `preorderPaths` lists), ending with none:
any fuel bound of at least `size top` yields exactly the pre-order list,
the list has no duplicates, and it contains precisely the valid node
paths.  On the empty table, `bgp_table_top` returns none at once. -/
theorem C7_iteration (l : List (Pfx × Option Nat)) :
    (isNil (runGets l).top = true → bgp_table_top (runGets l) = (runGets l, none)) ∧
    (isNil (runGets l).top = false →
      bgp_table_top (runGets l) =
        ({ top := bumpAt (runGets l).top [], count := (runGets l).count }, some []) ∧
      (∀ fuel, size (runGets l).top ≤ fuel →
        (iterS (bgp_table_top (runGets l)).1 fuel (bgp_table_top (runGets l)).2).1 =
          preorderPaths (runGets l).top) ∧
      (preorderPaths (runGets l).top).Nodup ∧
      (∀ π, π ∈ preorderPaths (runGets l).top ↔
        isNil (subAt (runGets l).top π) = false)) := by
  have hls := runGets_lockSafe l
  constructor
  · intro h
    unfold bgp_table_top
    rw [if_pos h]
  · intro h
    have htop : bgp_table_top (runGets l) =
        ({ top := bumpAt (runGets l).top [], count := (runGets l).count }, some []) := by
      unfold bgp_table_top
      rw [if_neg (by simp [h])]
    refine ⟨htop, ?_, preorderPaths_nodup _, fun π => preorderPaths_mem _ π⟩
    intro fuel hfuel
    rw [htop]
    have hsub : isNil (subAt (runGets l).top []) = false := by
      cases htt : (runGets l).top with
      | nil => rw [htt] at h; simp [isNil] at h
      | node d tl tr => simp [subAt, isNil]
    rw [iterS_eq_iterGo (runGets l).top hls fuel [] (runGets l).count hsub]
    exact iterGo_preorder (runGets l).top h fuel hfuel

/-- C7 witness: inserting 10.0.0.0/8, 10.128.0.0/9 and 11.0.0.0/8 and then
iterating visits the four nodes (glue at /7 included) in pre-order. -/
theorem C7_iteration_witness :
    (iterS (bgp_table_top (runGets
        [(⟨8, [10, 0, 0, 0]⟩, none), (⟨9, [10, 128, 0, 0]⟩, none),
          (⟨8, [11, 0, 0, 0]⟩, none)])).1 4
      (bgp_table_top (runGets
        [(⟨8, [10, 0, 0, 0]⟩, none), (⟨9, [10, 128, 0, 0]⟩, none),
          (⟨8, [11, 0, 0, 0]⟩, none)])).2).1 =
      preorderPaths (runGets
        [(⟨8, [10, 0, 0, 0]⟩, none), (⟨9, [10, 128, 0, 0]⟩, none),
          (⟨8, [11, 0, 0, 0]⟩, none)]).top :=
  (((C7_iteration
      [(⟨8, [10, 0, 0, 0]⟩, none), (⟨9, [10, 128, 0, 0]⟩, none),
        (⟨8, [11, 0, 0, 0]⟩, none)]).2 (by decide)).2.1) 4 (by decide)
